import Mathlib

/-!
# Verification of the dwfv signal database and search engine

This file is a shallow embedding, in Lean 4, of the core of the `dwfv`
waveform viewer: the multi-bit signal values (`src/signaldb/value.rs`), the
per-signal event list (`src/signaldb/signal.rs`), the scope tree
(`src/signaldb/scope.rs`), the signal database (`src/signaldb/db.rs`), the
search evaluator (`src/search/types.rs`), the search-expression parser
(`src/search/parser.rs`) and the VCD lexer and parser (`src/vcd/lexer.rs`,
`src/vcd/parser.rs`).

Modelling conventions:
* Timestamps are modelled as `Int`.  The database, signal and search code
  uses the scale-free `Timestamp::new(i64)` constructor whose comparisons,
  arithmetic (`derive`, `-`) and `Display` are those of the wrapped `i64`;
  every scenario exercised here lives at a single time scale, for which the
  integer model is exact.
* Rust's `slice::binary_search_by_key`, applied by the source only to lists
  whose keys are sorted, is modelled by a linear scan (`seek`) that returns
  the same `Ok`/`Err` answer as binary search does on a sorted slice.
* Mutation is modelled by explicit state passing; fallible operations
  return `Except`/`Option`; the one `panic!` reachable from a public entry
  point (`SignalDB::declare_signal`) is modelled by an `Option` result
  where `none` stands for the panic.
* Input streams are modelled as the list of their lines (each line carrying
  its trailing newline, as delivered by `BufRead::read_line`), and the
  parser loops, which the source bounds only by end of input, take explicit
  fuel.
-/

namespace Dwfv

/-- Decidable equality on `Except`, by cases on both constructors. -/
instance exceptDecEq {ε : Type u} {α : Type v} [DecidableEq ε] [DecidableEq α] :
    DecidableEq (Except ε α)
  | .error a, .error b =>
      if h : a = b then .isTrue (by rw [h])
      else .isFalse (fun hc => h (Except.error.inj hc))
  | .error a, .ok b => .isFalse (fun hc => Except.noConfusion hc)
  | .ok a, .error b => .isFalse (fun hc => Except.noConfusion hc)
  | .ok a, .ok b =>
      if h : a = b then .isTrue (by rw [h])
      else .isFalse (fun hc => h (Except.ok.inj hc))

/-! ## Signal values (`src/signaldb/value.rs`) -/

/-- `BitValue`: value of a single bit. -/
inductive BitValue where
  | low
  | high
  | highZ
  | invalid
  | overflow
  | undefined
  | filtered
deriving DecidableEq, Repr

/-- `ValueFormat`: preferred display radix of a literal. -/
inductive ValueFormat where
  | hex
  | bin
deriving DecidableEq, Repr

/-- `SignalValue`: either a literal bit vector (least-significant bit
first) with a display format, or an opaque symbol. -/
inductive SignalValue where
  | literal (bits : List BitValue) (fmt : ValueFormat)
  | symbol (s : String)
deriving DecidableEq, Repr

namespace BitValue

/-- `BitValue::from_char`. -/
def fromChar (c : Char) : BitValue :=
  match c with
  | '0' => .low
  | '1' => .high
  | 'z' => .highZ
  | 'u' => .undefined
  | '-' => .overflow
  | 'w' => .filtered
  | _ => .invalid

end BitValue

namespace SignalValue

/-- `SignalValue::from_str` (the `FromStr` impl): map `BitValue::from_char`
over the characters, then reverse so that the head is the LSB. -/
def fromStr (s : String) : SignalValue :=
  .literal ((s.data.map BitValue.fromChar).reverse) .hex

/-- The `while value != 0` loop of `SignalValue::new`, with structural fuel
(`fuel` halvings always suffice for a value `≤ 2 ^ fuel`). -/
def natBitsAux (fuel value : Nat) : List BitValue :=
  match fuel with
  | 0 => []
  | fuel + 1 =>
      if value = 0 then []
      else (if value % 2 = 0 then BitValue.low else BitValue.high) :: natBitsAux fuel (value / 2)

/-- Bits of a natural number, least-significant first, as produced by the
`while value != 0` loop of `SignalValue::new`. -/
def natBits (n : Nat) : List BitValue :=
  natBitsAux n n

/-- `SignalValue::new`: build a literal from an unsigned integer. -/
def new (value : Nat) : SignalValue :=
  .literal (natBits value) .hex

/-- `SignalValue::new_default`: `width` copies of the same bit. -/
def new_default (width : Nat) (value : BitValue) : SignalValue :=
  .literal (List.replicate width value) .hex

/-- `SignalValue::from_symbol_str`. -/
def from_symbol_str (s : String) : SignalValue :=
  .symbol s

/-- Value of a lower-cased hexadecimal digit, `None` for other characters
(`chars.find` in `SignalValue::from_hex` skips those). -/
def hexDigit? (c : Char) : Option Nat :=
  let c := c.toLower
  if '0' ≤ c ∧ c ≤ '9' then some (c.toNat - '0'.toNat)
  else if 'a' ≤ c ∧ c ≤ 'f' then some (c.toNat - 'a'.toNat + 10)
  else none

/-- The accumulator loop of `SignalValue::from_hex`: characters are
enumerated in reverse, nibble `i` is or-ed in at bit offset `4 * i`. -/
def fromHexAcc (cs : List Char) (nibble : Nat) : Nat :=
  match cs with
  | [] => 0
  | c :: rest =>
      (match hexDigit? c with
       | some i => i * 16 ^ nibble
       | none => 0) + fromHexAcc rest (nibble + 1)

/-- `SignalValue::from_hex`. -/
def from_hex (s : String) : SignalValue :=
  new (fromHexAcc s.data.reverse 0)

/-- `SignalValue::invalid`. -/
def invalid : SignalValue :=
  .literal [BitValue.undefined] .hex

/-- `SignalValue::expand`: widen a literal to `width` bits by pushing the
expansion bit; the expansion bit is the bit at index 0 (`literal.get(0)`,
the LSB), with `High` both as the default for an empty literal and mapped
to `Low` before padding.  Symbols are left unchanged.  (Modelled as a pure
function; the source mutates in place.) -/
def expand (v : SignalValue) (width : Nat) : SignalValue :=
  match v with
  | .literal bits fmt =>
      let expandValue0 := bits.head?.getD BitValue.high
      let expandValue := if expandValue0 = BitValue.high then BitValue.low else expandValue0
      .literal (bits ++ List.replicate (width - bits.length) expandValue) fmt
  | .symbol s => .symbol s

/-- `SignalValue::width`. -/
def width : SignalValue → Nat
  | .literal bits _ => bits.length
  | .symbol _ => 2

/-- `SignalValue::is_invalid`: true iff some bit of a literal is not
`Low`/`High`; symbols are never invalid. -/
def is_invalid : SignalValue → Bool
  | .literal bits _ =>
      bits.any fun b =>
        match b with
        | .highZ | .invalid | .overflow | .undefined | .filtered => true
        | _ => false
  | .symbol _ => false

/-- The `(Some(x), None) | (None, Some(x))` arm of `PartialEq for
`SignalValue`: surplus bits must all be `Low`. -/
def allLow : List BitValue → Bool
  | [] => true
  | y :: ys => y = BitValue.low && allLow ys

/-- Element-wise equality of bit lists with missing high bits treated as
`Low` (the index loop of `PartialEq for SignalValue`). -/
def bitsEq : List BitValue → List BitValue → Bool
  | [], ys => allLow ys
  | x :: xs, [] => x = BitValue.low && bitsEq xs []
  | x :: xs, y :: ys => x = y && bitsEq xs ys

/-- `PartialEq for SignalValue`: literals compare element-wise ignoring the
radix, symbols compare as strings, cross-variant comparison is false. -/
def eqv : SignalValue → SignalValue → Bool
  | .literal l _, .literal r _ => bitsEq l r
  | .symbol a, .symbol b => a = b
  | _, _ => false

end SignalValue

/-! ## Binary search (`slice::binary_search_by_key`)

The source performs lookups exclusively through Rust's
`binary_search_by_key` on slices whose keys are sorted (the per-signal
event list and the findings list both maintain sortedness).  On a sorted
slice the result of binary search is the `Ok`/`Err` answer computed by the
linear scan below (for strictly sorted keys the matching index is unique,
so the two agree exactly). -/

/-- Result of a Rust `binary_search_by_key`: `found i` is `Ok(i)`,
`notFound i` is `Err(i)` with `i` the insertion point. -/
inductive SeekResult where
  | found (i : Nat)
  | notFound (i : Nat)
deriving DecidableEq, Repr

/-- Scan for the first element whose key is `≥ target`, accumulating the
index; `found` on an exact hit. -/
def seekAux (key : α → Int) (target : Int) : List α → Nat → SeekResult
  | [], i => .notFound i
  | x :: xs, i =>
      if key x < target then seekAux key target xs (i + 1)
      else if key x = target then .found i
      else .notFound i

/-- Model of `binary_search_by_key(&target, key)` on a sorted slice. -/
def seek (key : α → Int) (target : Int) (l : List α) : SeekResult :=
  seekAux key target l 0

/-- A `Decidable` instance for `List.Chain'` built by plain structural
recursion, so that closed instances reduce inside the kernel. -/
instance decidableChainI {α} {R : α → α → Prop} [DecidableRel R] :
    ∀ l : List α, Decidable (List.Chain' R l)
  | [] => .isTrue List.chain'_nil
  | [a] => .isTrue (List.chain'_singleton a)
  | _ :: b :: rest =>
      @decidable_of_iff _ _ List.chain'_cons.symm
        (@instDecidableAnd _ _ inferInstance (decidableChainI (b :: rest)))

/-! ## Signals (`src/signaldb/signal.rs`) -/

/-- An entry of a signal's event list. -/
structure Event where
  timestamp : Int
  new_value : SignalValue
deriving DecidableEq, Repr

/-- `Signal`: identifier, full name, width, event list and default value. -/
structure Signal where
  id : String
  name : String
  width : Nat
  events : List Event
  default : SignalValue
deriving DecidableEq, Repr

namespace Signal

/-- `Signal::new`. -/
def new (id name : String) (width : Nat) : Signal :=
  { id := id
    name := name
    width := width
    events := []
    default := SignalValue.new_default width BitValue.undefined }

/-- `Signal::prev_value_at_index`. -/
def prev_value_at_index (s : Signal) (index : Nat) : SignalValue :=
  if index = 0 then s.default
  else if s.events.length ≤ index then
    match s.events.getLast? with
    | some e => e.new_value
    | none => s.default
  else
    match s.events[index - 1]? with
    | some e => e.new_value
    | none => s.default

/-- `Vec::insert` at a (valid) index. -/
def insertAt : List Event → Nat → Event → List Event
  | es, 0, x => x :: es
  | [], _ + 1, x => [x]
  | e :: es, i + 1, x => e :: insertAt es i x

/-- `Vec::remove` at a (valid) index. -/
def removeAt : List Event → Nat → List Event
  | [], _ => []
  | _ :: es, 0 => es
  | e :: es, i + 1 => e :: removeAt es i

/-- `self.events[index].new_value = new_value`. -/
def setNewValueAt : List Event → Nat → SignalValue → List Event
  | [], _, _ => []
  | e :: es, 0, nv => { e with new_value := nv } :: es
  | e :: es, i + 1, nv => e :: setNewValueAt es i nv

/-- `Signal::add_event`: expand the value to the signal's width, locate the
insertion point (with the `events.last()` fast path of the source), then
either drop a now-redundant event, overwrite the value in place, skip a
redundant insertion, or insert. -/
def add_event (s : Signal) (timestamp : Int) (v : SignalValue) : Signal :=
  let new_value := v.expand s.width
  let sk :=
    match s.events.getLast? with
    | some e =>
        if e.timestamp < timestamp then SeekResult.notFound s.events.length
        else seek (fun e : Event => e.timestamp) timestamp s.events
    | none => SeekResult.notFound 0
  match sk with
  | .found index =>
      if (s.prev_value_at_index index).eqv new_value then
        { s with events := removeAt s.events index }
      else
        { s with events := setNewValueAt s.events index new_value }
  | .notFound index =>
      if (s.prev_value_at_index index).eqv new_value then s
      else
        { s with events := insertAt s.events index ⟨timestamp, new_value⟩ }

/-- `Signal::value_at`. -/
def value_at (s : Signal) (timestamp : Int) : SignalValue :=
  match seek (fun e : Event => e.timestamp) timestamp s.events with
  | .found index =>
      match s.events[index]? with
      | some e => e.new_value
      | none => s.default
  | .notFound index => s.prev_value_at_index index

/-- `Signal::event_at`. -/
def event_at (s : Signal) (timestamp : Int) : Option SignalValue :=
  match seek (fun e : Event => e.timestamp) timestamp s.events with
  | .found index =>
      match s.events[index]? with
      | some e => some e.new_value
      | none => none
  | .notFound _ => none

/-- `Signal::index_of`. -/
def index_of (s : Signal) (timestamp : Int) : Nat :=
  match seek (fun e : Event => e.timestamp) timestamp s.events with
  | .found index => index
  | .notFound index => index

/-- `Signal::events_between`. -/
def events_between (s : Signal) (b e : Int) : SignalValue × Nat × SignalValue :=
  let beginIndex := s.index_of b
  let endIndex := s.index_of e
  (s.prev_value_at_index beginIndex, endIndex - beginIndex,
    s.prev_value_at_index endIndex)

end Signal

/-! ## Infrastructure: characterizing `seek` and the event-list update -/

namespace Signal

/-- The takeWhile predicate used to split an event list at timestamp `t`. -/
def beforeT (t : Int) (e : Event) : Bool :=
  decide (e.timestamp < t)

/-- `seekAux` walks the list while keys are `< target`; its result is
determined by the `takeWhile`/`dropWhile` split at the target. -/
theorem seekAux_eq (key : α → Int) (t : Int) (l : List α) (i : Nat) :
    seekAux key t l i =
      match (l.dropWhile fun x => decide (key x < t)).head? with
      | none => SeekResult.notFound (i + (l.takeWhile fun x => decide (key x < t)).length)
      | some x =>
          if key x = t then SeekResult.found (i + (l.takeWhile fun x => decide (key x < t)).length)
          else SeekResult.notFound (i + (l.takeWhile fun x => decide (key x < t)).length) := by
  induction l generalizing i with
  | nil => simp [seekAux]
  | cons x xs ih =>
      by_cases h : key x < t
      · have htw : ((x :: xs).takeWhile fun a => decide (key a < t))
            = x :: (xs.takeWhile fun a => decide (key a < t)) := by
          simp [List.takeWhile_cons, h]
        have hdw : ((x :: xs).dropWhile fun a => decide (key a < t))
            = xs.dropWhile fun a => decide (key a < t) := by
          simp [List.dropWhile_cons, h]
        rw [seekAux, if_pos h, ih (i + 1), htw, hdw]
        simp only [List.length_cons]
        have harith : i + 1 + (xs.takeWhile fun a => decide (key a < t)).length
            = i + ((xs.takeWhile fun a => decide (key a < t)).length + 1) := by omega
        rw [harith]
      · have htw : ((x :: xs).takeWhile fun a => decide (key a < t)) = [] := by
          simp [List.takeWhile_cons, h]
        have hdw : ((x :: xs).dropWhile fun a => decide (key a < t)) = x :: xs := by
          simp [List.dropWhile_cons, h]
        rw [seekAux, if_neg h, htw, hdw]
        by_cases hx : key x = t <;> simp [hx]

/-- `seek` (binary search) through the `takeWhile`/`dropWhile` split. -/
theorem seek_eq (key : α → Int) (t : Int) (l : List α) :
    seek key t l =
      match (l.dropWhile fun x => decide (key x < t)).head? with
      | none => SeekResult.notFound (l.takeWhile fun x => decide (key x < t)).length
      | some x =>
          if key x = t then SeekResult.found (l.takeWhile fun x => decide (key x < t)).length
          else SeekResult.notFound (l.takeWhile fun x => decide (key x < t)).length := by
  rw [seek, seekAux_eq]
  cases (l.dropWhile fun x => decide (key x < t)).head? with
  | none => simp
  | some y => by_cases hy : key y = t <;> simp [hy]

theorem dropWhile_head_false {α} (p : α → Bool) :
    ∀ (l : List α) (x : α) (xs : List α), l.dropWhile p = x :: xs → p x = false
  | [], x, xs, h => by simp at h
  | a :: as, x, xs, h => by
      rw [List.dropWhile_cons] at h
      by_cases ha : p a = true
      · rw [if_pos ha] at h
        exact dropWhile_head_false p as x xs h
      · rw [if_neg ha] at h
        cases h
        simpa using ha

theorem insertAt_append (l₁ l₂ : List Event) (x : Event) :
    insertAt (l₁ ++ l₂) l₁.length x = l₁ ++ x :: l₂ := by
  induction l₁ with
  | nil => cases l₂ <;> rfl
  | cons a as ih => simpa [insertAt] using ih

theorem removeAt_append (l₁ l₂ : List Event) (x : Event) :
    removeAt (l₁ ++ x :: l₂) l₁.length = l₁ ++ l₂ := by
  induction l₁ with
  | nil => rfl
  | cons a as ih => simpa [removeAt] using ih

theorem setNewValueAt_append (l₁ l₂ : List Event) (x : Event) (nv : SignalValue) :
    setNewValueAt (l₁ ++ x :: l₂) l₁.length nv = l₁ ++ { x with new_value := nv } :: l₂ := by
  induction l₁ with
  | nil => rfl
  | cons a as ih => simpa [setNewValueAt] using ih

/-- `prev_value_at_index` at the length of a prefix is the last value of
the prefix (or the default). -/
theorem prev_value_split (s : Signal) {l₁ l₂ : List Event} (h : s.events = l₁ ++ l₂) :
    s.prev_value_at_index l₁.length =
      match l₁.getLast? with
      | some e => e.new_value
      | none => s.default := by
  cases l₁ with
  | nil => simp [prev_value_at_index]
  | cons a as =>
      rw [prev_value_at_index, if_neg (by simp)]
      cases l₂ with
      | nil =>
          rw [if_pos (by simp [h])]
          rw [show s.events.getLast? = (a :: as).getLast? by rw [h]; simp]
      | cons b bs =>
          rw [if_neg (by simp [h])]
          have hlen : (a :: as).length - 1 < (a :: as).length := by simp
          rw [show s.events[(a :: as).length - 1]? = (a :: as).getLast? by
            rw [h, List.getElem?_append, if_pos hlen, List.getLast?_eq_getElem?]]

theorem takeWhile_dropWhile_of (p : Event → Bool) (l₁ l₂ : List Event)
    (h₁ : ∀ a ∈ l₁, p a = true) (h₂ : ∀ y ∈ l₂.head?, p y = false) :
    (l₁ ++ l₂).takeWhile p = l₁ ∧ (l₁ ++ l₂).dropWhile p = l₂ := by
  induction l₁ with
  | nil =>
      cases l₂ with
      | nil => simp
      | cons y ys =>
          have hy : p y = false := h₂ y (by simp)
          simp [List.takeWhile_cons, List.dropWhile_cons, hy]
  | cons a as ih =>
      have ha : p a = true := h₁ a (by simp)
      have ih1 := ih fun x hx => h₁ x (by simp [hx])
      simp [List.takeWhile_cons, List.dropWhile_cons, ha, ih1.1, ih1.2]

/-- `Signal::value_at` just before `t`: the value of the last event with a
timestamp `< t`, or the default.  This is the "value the signal holds
immediately before `t`" of the spec; `prev_value_split` below identifies it
with `prev_value_at_index` at the seek index. -/
def value_before (s : Signal) (t : Int) : SignalValue :=
  match (s.events.takeWhile (beforeT t)).getLast? with
  | some e => e.new_value
  | none => s.default

/-- What `add_event` does, phrased on the `takeWhile`/`dropWhile` split of
the (sorted) event list at the new timestamp. -/
def addEventView (s : Signal) (t : Int) (v : SignalValue) : Signal :=
  let nv := v.expand s.width
  let l₁ := s.events.takeWhile (beforeT t)
  match s.events.dropWhile (beforeT t) with
  | [] =>
      if (s.value_before t).eqv nv then s
      else { s with events := l₁ ++ [⟨t, nv⟩] }
  | x :: xs =>
      if x.timestamp = t then
        if (s.value_before t).eqv nv then { s with events := l₁ ++ xs }
        else { s with events := l₁ ++ ⟨x.timestamp, nv⟩ :: xs }
      else
        if (s.value_before t).eqv nv then s
        else { s with events := l₁ ++ ⟨t, nv⟩ :: x :: xs }

/-- Strict timestamp sortedness of an event list. -/
def ESorted (l : List Event) : Prop :=
  l.Chain' fun a b => a.timestamp < b.timestamp

/-- The spec's full event-list invariant: adjacent events have strictly
increasing timestamps and distinct (`PartialEq`) values. -/
def EventsInv (l : List Event) : Prop :=
  l.Chain' fun a b => a.timestamp < b.timestamp ∧ (a.new_value.eqv b.new_value) = false

instance : ∀ l, Decidable (ESorted l) :=
  fun l => inferInstanceAs (Decidable (l.Chain' _))

instance : ∀ l, Decidable (EventsInv l) :=
  fun l => inferInstanceAs (Decidable (l.Chain' _))

instance : IsTrans Event fun a b => a.timestamp < b.timestamp :=
  ⟨fun _ _ _ h₁ h₂ => lt_trans h₁ h₂⟩

theorem EventsInv.eSorted {l : List Event} (h : EventsInv l) : ESorted l :=
  List.Chain'.imp (fun _ _ hab => hab.1) h

/-- In a sorted event list every timestamp is at most the last one. -/
theorem esorted_le_getLast {l : List Event} (h : ESorted l) {e : Event}
    (hgl : l.getLast? = some e) : ∀ x ∈ l, x.timestamp ≤ e.timestamp := by
  have hpw : l.Pairwise fun a b => a.timestamp < b.timestamp :=
    (List.chain'_iff_pairwise).mp h
  obtain ⟨l', rfl⟩ : ∃ l', l = l' ++ [e] := by
    rcases List.eq_nil_or_concat l with rfl | ⟨l', y, rfl⟩
    · simp at hgl
    · simp only [List.concat_eq_append, List.getLast?_concat] at hgl ⊢
      exact ⟨l', by simp_all⟩
  intro x hx
  rcases List.mem_append.mp hx with hx | hx
  · exact le_of_lt ((List.pairwise_append.mp hpw).2.2 x hx e (by simp))
  · simp at hx; simp [hx]

/-- On a sorted event list, `add_event` acts as described by
`addEventView`. -/
theorem add_event_eq_view (s : Signal) (t : Int) (v : SignalValue)
    (h : ESorted s.events) : s.add_event t v = addEventView s t v := by
  have happ := List.takeWhile_append_dropWhile (p := beforeT t) (l := s.events)
  have hseek := seek_eq (fun e : Event => e.timestamp) t s.events
  have hkey : (fun e : Event => decide (e.timestamp < t)) = beforeT t := rfl
  rw [hkey] at hseek
  rw [add_event, addEventView]
  cases hgl : s.events.getLast? with
  | none =>
      have hnil : s.events = [] := List.getLast?_eq_none_iff.mp hgl
      simp only [hnil, hgl]
      simp [value_before, prev_value_at_index, hnil, insertAt]
  | some e =>
      by_cases he : e.timestamp < t
      · -- fast path: every event is before `t`
        have hall : ∀ x ∈ s.events, beforeT t x = true := by
          intro x hx
          have := esorted_le_getLast h hgl x hx
          simp [beforeT]; omega
        have hdw : s.events.dropWhile (beforeT t) = [] :=
          List.dropWhile_eq_nil_iff.mpr hall
        have htw : s.events.takeWhile (beforeT t) = s.events :=
          List.takeWhile_eq_self_iff.mpr hall
        have hprev : s.prev_value_at_index s.events.length
            = s.value_before t := by
          have := @prev_value_split s s.events [] (by simp)
          rw [value_before, htw]
          exact this
        simp only [hgl, if_pos he, hdw, hprev]
        by_cases hpe : (s.value_before t).eqv (v.expand s.width) <;> simp only [hpe, if_true, if_false]
        have : insertAt s.events s.events.length ⟨t, v.expand s.width⟩
            = s.events.takeWhile (beforeT t) ++ [⟨t, v.expand s.width⟩] := by
          rw [htw]
          simpa using insertAt_append s.events [] ⟨t, v.expand s.width⟩
        simp [this]
      · -- seek path
        simp only [hgl, if_neg he]
        have hprev : s.prev_value_at_index (s.events.takeWhile (beforeT t)).length
            = s.value_before t := by
          have := @prev_value_split s (s.events.takeWhile (beforeT t))
            (s.events.dropWhile (beforeT t)) happ.symm
          rw [value_before]
          exact this
        cases hdw : s.events.dropWhile (beforeT t) with
        | nil =>
            exfalso
            have hall := List.dropWhile_eq_nil_iff.mp hdw
            have := hall e (List.mem_of_mem_getLast? hgl)
            simp [beforeT] at this
            omega
        | cons x xs =>
            generalize hl₁ : s.events.takeWhile (beforeT t) = l₁ at *
            have hsplit : s.events = l₁ ++ x :: xs := by
              rw [← hdw]; exact happ.symm
            rw [hdw] at hseek
            simp only [List.head?_cons] at hseek
            have hrm : removeAt s.events l₁.length = l₁ ++ xs := by
              rw [hsplit]; exact removeAt_append _ _ _
            have hset : setNewValueAt s.events l₁.length (v.expand s.width)
                = l₁ ++ ⟨x.timestamp, v.expand s.width⟩ :: xs := by
              rw [hsplit]; exact setNewValueAt_append _ _ _ _
            have hins : insertAt s.events l₁.length ⟨t, v.expand s.width⟩
                = l₁ ++ ⟨t, v.expand s.width⟩ :: x :: xs := by
              rw [hsplit]; exact insertAt_append _ (x :: xs) _
            by_cases hx : x.timestamp = t
            · rw [if_pos hx] at hseek
              rw [hseek]
              dsimp only
              rw [hprev]
              by_cases hpe : (s.value_before t).eqv (v.expand s.width) = true
              · simp [hpe, hx, hrm]
              · rw [Bool.not_eq_true] at hpe
                simp [hpe, hx, hset]
            · rw [if_neg hx] at hseek
              rw [hseek]
              dsimp only
              rw [hprev]
              by_cases hpe : (s.value_before t).eqv (v.expand s.width) = true
              · simp [hpe, hx]
              · rw [Bool.not_eq_true] at hpe
                simp [hpe, hx, hins]

/-- Elements of the `takeWhile (beforeT t)` prefix have timestamps `< t`. -/
theorem mem_takeWhile_lt {l : List Event} {t : Int} {x : Event}
    (hx : x ∈ l.takeWhile (beforeT t)) : x.timestamp < t := by
  have := List.mem_takeWhile_imp hx
  simpa [beforeT] using this

/-- The head of `dropWhile (beforeT t)` has timestamp `≥ t`. -/
theorem head_dropWhile_ge {l : List Event} {t : Int} {x : Event} {xs : List Event}
    (h : l.dropWhile (beforeT t) = x :: xs) : t ≤ x.timestamp := by
  induction l with
  | nil => simp at h
  | cons a as ih =>
      rw [List.dropWhile_cons] at h
      by_cases ha : beforeT t a = true
      · rw [if_pos ha] at h; exact ih h
      · rw [if_neg (by simp_all)] at h
        cases h
        simp [beforeT] at ha
        omega

/-- `add_event` preserves strict timestamp sortedness. -/
theorem add_event_sorted (s : Signal) (t : Int) (v : SignalValue)
    (h : ESorted s.events) : ESorted (s.add_event t v).events := by
  rw [add_event_eq_view s t v h, addEventView]
  have happ := List.takeWhile_append_dropWhile (p := beforeT t) (l := s.events)
  cases hdw : s.events.dropWhile (beforeT t) with
  | nil =>
      dsimp only
      by_cases hpe : (s.value_before t).eqv (v.expand s.width) = true
      · rw [if_pos hpe]; exact h
      · rw [if_neg hpe]
        rw [ESorted, List.chain'_append]
        refine ⟨?_, by simp, ?_⟩
        · rw [hdw, List.append_nil] at happ
          rw [happ]; exact h
        · intro a ha b hb
          simp only [List.head?_cons, Option.mem_def, Option.some.injEq] at hb
          subst hb
          exact mem_takeWhile_lt (List.mem_of_mem_getLast? ha)
  | cons x xs =>
      have hsplit : s.events = s.events.takeWhile (beforeT t) ++ x :: xs := by
        rw [← hdw]; exact happ.symm
      have hxt := head_dropWhile_ge hdw
      have hch := h
      rw [ESorted, hsplit, List.chain'_append] at hch
      obtain ⟨hch₁, hch₂, hch₃⟩ := hch
      dsimp only
      by_cases hx : x.timestamp = t
      · by_cases hpe : (s.value_before t).eqv (v.expand s.width) = true
        · rw [if_pos hx, if_pos hpe]
          rw [ESorted, List.chain'_append]
          refine ⟨hch₁, (List.chain'_cons'.mp hch₂).2, ?_⟩
          intro a ha b hb
          have hbx : x.timestamp < b.timestamp := (List.chain'_cons'.mp hch₂).1 b hb
          have hat := mem_takeWhile_lt (List.mem_of_mem_getLast? ha)
          omega
        · rw [if_pos hx, if_neg hpe]
          rw [ESorted, List.chain'_append]
          refine ⟨hch₁, ?_, ?_⟩
          · rw [List.chain'_cons']
            exact ⟨fun y hy => (List.chain'_cons'.mp hch₂).1 y hy,
              (List.chain'_cons'.mp hch₂).2⟩
          · intro a ha b hb
            simp only [List.head?_cons, Option.mem_def, Option.some.injEq] at hb
            subst hb
            show a.timestamp < x.timestamp
            have hat := mem_takeWhile_lt (List.mem_of_mem_getLast? ha)
            omega
      · by_cases hpe : (s.value_before t).eqv (v.expand s.width) = true
        · rw [if_neg hx, if_pos hpe]
          exact h
        · rw [if_neg hx, if_neg hpe]
          rw [ESorted, List.chain'_append]
          refine ⟨hch₁, ?_, ?_⟩
          · rw [List.chain'_cons']
            refine ⟨?_, hch₂⟩
            intro y hy
            simp only [List.head?_cons, Option.mem_def, Option.some.injEq] at hy
            subst hy
            show t < x.timestamp
            omega
          · intro a ha b hb
            simp only [List.head?_cons, Option.mem_def, Option.some.injEq] at hb
            subst hb
            exact mem_takeWhile_lt (List.mem_of_mem_getLast? ha)

/-- Every event of `add_event s t v` either was already stored or carries
the new timestamp `t`. -/
theorem add_event_mem (s : Signal) (t : Int) (v : SignalValue)
    (h : ESorted s.events) :
    ∀ e ∈ (s.add_event t v).events, e ∈ s.events ∨ e.timestamp = t := by
  rw [add_event_eq_view s t v h, addEventView]
  have happ := List.takeWhile_append_dropWhile (p := beforeT t) (l := s.events)
  have hsub : ∀ e ∈ s.events.takeWhile (beforeT t), e ∈ s.events :=
    fun e he => (List.takeWhile_sublist _).mem he
  cases hdw : s.events.dropWhile (beforeT t) with
  | nil =>
      dsimp only
      by_cases hpe : (s.value_before t).eqv (v.expand s.width) = true
      · rw [if_pos hpe]
        intro e he; exact Or.inl he
      · rw [if_neg hpe]
        intro e he
        rcases List.mem_append.mp he with he | he
        · exact Or.inl (hsub e he)
        · simp at he; subst he; exact Or.inr rfl
  | cons x xs =>
      have hsplit : s.events = s.events.takeWhile (beforeT t) ++ x :: xs := by
        rw [← hdw]; exact happ.symm
      have hmemxs : ∀ e ∈ xs, e ∈ s.events := by
        intro e he; rw [hsplit]; exact List.mem_append.mpr (Or.inr (by simp [he]))
      dsimp only
      by_cases hx : x.timestamp = t
      · by_cases hpe : (s.value_before t).eqv (v.expand s.width) = true
        · rw [if_pos hx, if_pos hpe]
          intro e he
          rcases List.mem_append.mp he with he | he
          · exact Or.inl (hsub e he)
          · exact Or.inl (hmemxs e he)
        · rw [if_pos hx, if_neg hpe]
          intro e he
          rcases List.mem_append.mp he with he | he
          · exact Or.inl (hsub e he)
          · rcases List.mem_cons.mp he with he | he
            · subst he; exact Or.inr hx
            · exact Or.inl (hmemxs e he)
      · by_cases hpe : (s.value_before t).eqv (v.expand s.width) = true
        · rw [if_neg hx, if_pos hpe]
          intro e he; exact Or.inl he
        · rw [if_neg hx, if_neg hpe]
          intro e he
          rcases List.mem_append.mp he with he | he
          · exact Or.inl (hsub e he)
          · rcases List.mem_cons.mp he with he | he
            · subst he; exact Or.inr rfl
            · exact Or.inl (by rw [hsplit]; exact List.mem_append.mpr (Or.inr he))

/-- When the new timestamp is at least every stored timestamp, `add_event`
also preserves the distinct-adjacent-values half of the invariant. -/
theorem add_event_inv_inorder (s : Signal) (t : Int) (v : SignalValue)
    (hinv : EventsInv s.events) (hle : ∀ e ∈ s.events, e.timestamp ≤ t) :
    EventsInv (s.add_event t v).events := by
  have hsorted : ESorted s.events := hinv.eSorted
  rw [add_event_eq_view s t v hsorted, addEventView]
  have happ := List.takeWhile_append_dropWhile (p := beforeT t) (l := s.events)
  cases hdw : s.events.dropWhile (beforeT t) with
  | nil =>
      dsimp only
      have htw : s.events.takeWhile (beforeT t) = s.events := by
        rw [← happ, hdw, List.append_nil, List.takeWhile_idem]
      by_cases hpe : (s.value_before t).eqv (v.expand s.width) = true
      · rw [if_pos hpe]; exact hinv
      · rw [if_neg hpe]
        rw [EventsInv, List.chain'_append]
        refine ⟨by rw [htw]; exact hinv, by simp, ?_⟩
        intro a ha b hb
        simp only [List.head?_cons, Option.mem_def, Option.some.injEq] at hb
        subst hb
        refine ⟨mem_takeWhile_lt (List.mem_of_mem_getLast? ha), ?_⟩
        have hpv : s.value_before t = a.new_value := by
          rw [value_before]
          rw [Option.mem_def] at ha
          rw [ha]
        show (a.new_value.eqv (v.expand s.width)) = false
        rw [← hpv]
        simpa using hpe
  | cons x xs =>
      dsimp only
      have hsplit : s.events = s.events.takeWhile (beforeT t) ++ x :: xs := by
        rw [← hdw]; exact happ.symm
      have hxt := head_dropWhile_ge hdw
      have hxt' : x.timestamp = t := by
        have hx_mem : x ∈ s.events := by
          rw [hsplit]; exact List.mem_append.mpr (Or.inr (by simp))
        have := hle x hx_mem
        omega
      have hxs : xs = [] := by
        cases hxs : xs with
        | nil => rfl
        | cons y ys =>
            exfalso
            have hpw : s.events.Pairwise fun a b => a.timestamp < b.timestamp :=
              (List.chain'_iff_pairwise).mp hsorted
            have hxy : x.timestamp < y.timestamp := by
              rw [hsplit, hxs] at hpw
              exact (List.pairwise_cons.mp (List.pairwise_append.mp hpw).2.1).1 y (by simp)
            have hy_mem : y ∈ s.events := by
              rw [hsplit, hxs]
              exact List.mem_append.mpr (Or.inr (by simp))
            have := hle y hy_mem
            omega
      subst hxs
      have hch := hinv
      rw [EventsInv, hsplit, List.chain'_append] at hch
      obtain ⟨hch₁, _, hch₃⟩ := hch
      rw [if_pos hxt']
      by_cases hpe : (s.value_before t).eqv (v.expand s.width) = true
      · rw [if_pos hpe]
        simpa [EventsInv] using hch₁
      · rw [if_neg hpe]
        rw [EventsInv, List.chain'_append]
        refine ⟨hch₁, by simp, ?_⟩
        intro a ha b hb
        simp only [List.head?_cons, Option.mem_def, Option.some.injEq] at hb
        subst hb
        have hpv : s.value_before t = a.new_value := by
          rw [value_before]
          rw [Option.mem_def] at ha
          rw [ha]
        refine ⟨?_, ?_⟩
        · show a.timestamp < x.timestamp
          have h1 : a.timestamp < t := mem_takeWhile_lt (List.mem_of_mem_getLast? ha)
          omega
        · show (a.new_value.eqv (v.expand s.width)) = false
          rw [← hpv]
          simpa using hpe

/-- `add_event` is the identity on a signal that already stores the
expanded value at `t` after a prefix of earlier events, when that value
differs from the previous one (the in-place overwrite writes back the same
record). -/
theorem add_event_fixpoint_replace (s' : Signal) (t : Int) (v : SignalValue)
    (l₁ rest : List Event) (hs : ESorted s'.events)
    (h₁ : ∀ a ∈ l₁, beforeT t a = true)
    (hev : s'.events = l₁ ++ ⟨t, v.expand s'.width⟩ :: rest)
    (hpe : ((match l₁.getLast? with
             | some e => e.new_value
             | none => s'.default) : SignalValue).eqv (v.expand s'.width) = false) :
    s'.add_event t v = s' := by
  rw [add_event_eq_view s' t v hs, addEventView]
  have hsplit := takeWhile_dropWhile_of (beforeT t) l₁ (⟨t, v.expand s'.width⟩ :: rest) h₁
    (by intro y hy
        simp only [List.head?_cons, Option.mem_def, Option.some.injEq] at hy
        subst hy
        simp [beforeT])
  have htw : s'.events.takeWhile (beforeT t) = l₁ := by rw [hev]; exact hsplit.1
  have hdm : s'.events.dropWhile (beforeT t) = ⟨t, v.expand s'.width⟩ :: rest := by
    rw [hev]; exact hsplit.2
  have hvb : s'.value_before t
      = (match l₁.getLast? with
         | some e => e.new_value
         | none => s'.default) := by
    rw [value_before, htw]
  rw [hdm]
  dsimp only
  rw [if_pos rfl, hvb, if_neg (by simp [hpe]), htw]
  rw [show (l₁ ++ ({ timestamp := t, new_value := v.expand s'.width } : Event) :: rest)
      = s'.events from hev.symm]

/-- `add_event` is a no-op on a signal whose events all avoid `t` (before
or strictly after), when the expanded value matches the value before `t`. -/
theorem add_event_fixpoint_noop (s' : Signal) (t : Int) (v : SignalValue)
    (l₁ rest : List Event) (hs : ESorted s'.events)
    (h₁ : ∀ a ∈ l₁, beforeT t a = true)
    (hrest : ∀ y ∈ rest.head?, t < y.timestamp)
    (hev : s'.events = l₁ ++ rest)
    (hpe : ((match l₁.getLast? with
             | some e => e.new_value
             | none => s'.default) : SignalValue).eqv (v.expand s'.width) = true) :
    s'.add_event t v = s' := by
  rw [add_event_eq_view s' t v hs, addEventView]
  have hsplit := takeWhile_dropWhile_of (beforeT t) l₁ rest h₁
    (by intro y hy
        have := hrest y hy
        simp [beforeT]
        omega)
  have htw : s'.events.takeWhile (beforeT t) = l₁ := by rw [hev]; exact hsplit.1
  have hdm : s'.events.dropWhile (beforeT t) = rest := by rw [hev]; exact hsplit.2
  have hvb : s'.value_before t
      = (match l₁.getLast? with
         | some e => e.new_value
         | none => s'.default) := by
    rw [value_before, htw]
  rw [hdm]
  cases rest with
  | nil =>
      dsimp only
      rw [hvb, if_pos hpe]
  | cons y ys =>
      dsimp only
      have hy : t < y.timestamp := hrest y (by simp)
      rw [if_neg (by omega), hvb, if_pos hpe]

/-- On a sorted event list, `add_event` is idempotent. -/
theorem add_event_idem (s : Signal) (t : Int) (v : SignalValue)
    (h : ESorted s.events) :
    (s.add_event t v).add_event t v = s.add_event t v := by
  have hs₁ : ESorted (s.add_event t v).events := add_event_sorted s t v h
  have happ := List.takeWhile_append_dropWhile (p := beforeT t) (l := s.events)
  have h₁ : ∀ a ∈ s.events.takeWhile (beforeT t), beforeT t a = true :=
    fun _ ha => List.mem_takeWhile_imp ha
  rw [add_event_eq_view s t v h] at hs₁ ⊢
  rw [addEventView] at hs₁ ⊢
  cases hdw : s.events.dropWhile (beforeT t) with
  | nil =>
      rw [hdw] at hs₁
      dsimp only at hs₁ ⊢
      have htw : s.events.takeWhile (beforeT t) = s.events := by
        rw [← happ, hdw, List.append_nil, List.takeWhile_idem]
      by_cases hpe : (s.value_before t).eqv (v.expand s.width) = true
      · rw [if_pos hpe] at hs₁ ⊢
        refine add_event_fixpoint_noop s t v (s.events.takeWhile (beforeT t)) [] h
          h₁ (by simp) (by rw [List.append_nil, htw]) ?_
        exact hpe
      · rw [if_neg hpe] at hs₁ ⊢
        refine add_event_fixpoint_replace _ t v (s.events.takeWhile (beforeT t)) [] hs₁
          h₁ rfl ?_
        simpa [value_before] using hpe
  | cons x xs =>
      rw [hdw] at hs₁
      dsimp only at hs₁ ⊢
      have hsplit : s.events = s.events.takeWhile (beforeT t) ++ x :: xs := by
        rw [← hdw]; exact happ.symm
      have hxt := head_dropWhile_ge hdw
      have hpw : s.events.Pairwise fun a b => a.timestamp < b.timestamp :=
        (List.chain'_iff_pairwise).mp h
      have hxy : ∀ y ∈ xs, x.timestamp < y.timestamp := by
        intro y hy
        rw [hsplit] at hpw
        exact (List.pairwise_cons.mp (List.pairwise_append.mp hpw).2.1).1 y hy
      by_cases hx : x.timestamp = t
      · by_cases hpe : (s.value_before t).eqv (v.expand s.width) = true
        · rw [if_pos hx, if_pos hpe] at hs₁ ⊢
          refine add_event_fixpoint_noop _ t v (s.events.takeWhile (beforeT t)) xs hs₁
            h₁ ?_ rfl ?_
          · intro y hy
            have := hxy y (List.mem_of_mem_head? hy)
            omega
          · exact hpe
        · rw [if_pos hx, if_neg hpe] at hs₁ ⊢
          refine add_event_fixpoint_replace _ t v (s.events.takeWhile (beforeT t)) xs hs₁
            h₁ ?_ ?_
          · show _ = _ ++ (⟨t, _⟩ : Event) :: xs
            rw [← hx]
          · simpa [value_before] using hpe
      · by_cases hpe : (s.value_before t).eqv (v.expand s.width) = true
        · rw [if_neg hx, if_pos hpe] at hs₁ ⊢
          refine add_event_fixpoint_noop s t v (s.events.takeWhile (beforeT t)) (x :: xs) h
            h₁ ?_ hsplit ?_
          · intro y hy
            simp only [List.head?_cons, Option.mem_def, Option.some.injEq] at hy
            subst hy
            omega
          · exact hpe
        · rw [if_neg hx, if_neg hpe] at hs₁ ⊢
          refine add_event_fixpoint_replace _ t v (s.events.takeWhile (beforeT t)) (x :: xs)
            hs₁ h₁ rfl ?_
          simpa [value_before] using hpe

/-- If the expanded value equals the value the signal holds just before
`t`, `add_event` leaves no event stored at `t`. -/
theorem add_event_no_event_at (s : Signal) (t : Int) (v : SignalValue)
    (h : ESorted s.events)
    (hpe : (s.value_before t).eqv (v.expand s.width) = true) :
    ∀ e ∈ (s.add_event t v).events, e.timestamp ≠ t := by
  have happ := List.takeWhile_append_dropWhile (p := beforeT t) (l := s.events)
  rw [add_event_eq_view s t v h, addEventView]
  cases hdw : s.events.dropWhile (beforeT t) with
  | nil =>
      dsimp only
      rw [if_pos hpe]
      have htw : s.events.takeWhile (beforeT t) = s.events := by
        rw [← happ, hdw, List.append_nil, List.takeWhile_idem]
      intro e he
      have : e ∈ s.events.takeWhile (beforeT t) := by rw [htw]; exact he
      have := mem_takeWhile_lt this
      omega
  | cons x xs =>
      dsimp only
      have hsplit : s.events = s.events.takeWhile (beforeT t) ++ x :: xs := by
        rw [← hdw]; exact happ.symm
      have hxt := head_dropWhile_ge hdw
      have hpw : s.events.Pairwise fun a b => a.timestamp < b.timestamp :=
        (List.chain'_iff_pairwise).mp h
      have hxy : ∀ y ∈ xs, x.timestamp < y.timestamp := by
        intro y hy
        rw [hsplit] at hpw
        exact (List.pairwise_cons.mp (List.pairwise_append.mp hpw).2.1).1 y hy
      by_cases hx : x.timestamp = t
      · rw [if_pos hx, if_pos hpe]
        intro e he
        rcases List.mem_append.mp he with he | he
        · have := mem_takeWhile_lt he; omega
        · have := hxy e he; omega
      · rw [if_neg hx, if_pos hpe]
        intro e he
        rw [hsplit] at he
        rcases List.mem_append.mp he with he | he
        · have := mem_takeWhile_lt he; omega
        · rcases List.mem_cons.mp he with he | he
          · subst he; exact hx
          · have := hxy e he; omega

/-- A sequence of `add_event` calls, oldest first. -/
def addEvents (s : Signal) (tr : List (Int × SignalValue)) : Signal :=
  tr.foldl (fun acc p => acc.add_event p.1 p.2) s

theorem addEvents_sorted (s : Signal) (tr : List (Int × SignalValue))
    (h : ESorted s.events) : ESorted (addEvents s tr).events := by
  induction tr generalizing s with
  | nil => exact h
  | cons p rest ih => exact ih _ (add_event_sorted s p.1 p.2 h)

theorem addEvents_inv (s : Signal) (tr : List (Int × SignalValue))
    (hinv : EventsInv s.events)
    (hbound : ∀ e ∈ s.events, ∀ u ∈ tr.map Prod.fst, e.timestamp ≤ u)
    (hmono : (tr.map Prod.fst).Chain' (· ≤ ·)) :
    EventsInv (addEvents s tr).events := by
  induction tr generalizing s with
  | nil => exact hinv
  | cons p rest ih =>
      have hle : ∀ e ∈ s.events, e.timestamp ≤ p.1 := by
        intro e he
        exact hbound e he p.1 (by simp)
      have hinv' := add_event_inv_inorder s p.1 p.2 hinv hle
      have hmono' : (rest.map Prod.fst).Chain' (· ≤ ·) := by
        simpa using (List.chain'_cons'.mp (by simpa using hmono)).2
      have hhead : ∀ u ∈ rest.map Prod.fst, p.1 ≤ u := by
        have hpw : (p.1 :: rest.map Prod.fst).Pairwise (· ≤ ·) :=
          (List.chain'_iff_pairwise).mp (by simpa using hmono)
        intro u hu
        exact (List.pairwise_cons.mp hpw).1 u hu
      have hbound' : ∀ e ∈ (s.add_event p.1 p.2).events,
          ∀ u ∈ rest.map Prod.fst, e.timestamp ≤ u := by
        intro e he u hu
        rcases add_event_mem s p.1 p.2 hinv.eSorted e he with hmem | hts
        · exact hbound e hmem u (by simp [hu])
        · rw [hts]; exact hhead u hu
      exact ih _ hinv' hbound' hmono'

end Signal

/-! ## Claims C3, C4, C5 -/

/-- C3 counterexample: starting from `Signal::new("t", "test", 1)`, the
call sequence `add_event(10, 1); add_event(20, 0); add_event(30, 1);
add_event(20, 1)` leaves the event list `[(10, 1), (30, 1)]`, whose two
adjacent events carry equal values — the removal of the event at `20`
(redundant against its predecessor) joins two equal-valued neighbours, so
the invariant claimed for arbitrary (not necessarily increasing) insertion
orders is false. -/
theorem claim_C3_counterexample :
    ¬ Signal.EventsInv (Signal.addEvents (Signal.new "t" "test" 1)
      [(10, SignalValue.new 1), (20, SignalValue.new 0),
       (30, SignalValue.new 1), (20, SignalValue.new 1)]).events := by
  decide

/-- C3 (amended): for every Signal and every sequence of `add_event` calls,
the stored event list remains strictly increasing in timestamp; and when
the calls arrive with non-decreasing timestamps (as the single-pass VCD
parser produces them), every pair of adjacent events additionally has
distinct `new_value`s. -/
theorem claim_C3 :
    (∀ (id name : String) (width : Nat) (tr : List (Int × SignalValue)),
        Signal.ESorted (Signal.addEvents (Signal.new id name width) tr).events) ∧
    (∀ (id name : String) (width : Nat) (tr : List (Int × SignalValue)),
        (tr.map Prod.fst).Chain' (· ≤ ·) →
        Signal.EventsInv (Signal.addEvents (Signal.new id name width) tr).events) := by
  constructor
  · intro id name width tr
    exact Signal.addEvents_sorted _ tr (by simp [Signal.new, Signal.ESorted])
  · intro id name width tr hmono
    exact Signal.addEvents_inv _ tr (by simp [Signal.new, Signal.EventsInv])
      (by simp [Signal.new]) hmono

/-- C3 witness: the amended invariant evaluated on a concrete in-order
trace. -/
theorem claim_C3_witness :
    Signal.EventsInv (Signal.addEvents (Signal.new "w" "wit" 1)
      [(0, SignalValue.new 0), (5, SignalValue.new 1)]).events :=
  claim_C3.2 "w" "wit" 1 [(0, SignalValue.new 0), (5, SignalValue.new 1)] (by decide)

/-- C4 counterexample: on a width-3 signal holding the events `(5, b00z)`
and `(7, b111)`, the value `bz` equals — under the system's own
`PartialEq`, which reads missing high bits as `Low` — the value the signal
holds immediately before `t = 7`; yet `add_event(7, bz)` leaves an event
stored at 7 (its value overwritten to `zzz`), because the code compares
the prior value against the *expanded* value `[z, z, z]`, not against
`v`.  So the claim's deletion clause, conditioned on `v` itself equalling
the prior value, is false. -/
theorem claim_C4_counterexample :
    (SignalValue.fromStr "z").eqv
      ((((Signal.new "0" "sig" 3).add_event 5 (SignalValue.fromStr "00z")).add_event 7
          (SignalValue.fromStr "111")).value_before 7) = true ∧
    (((((Signal.new "0" "sig" 3).add_event 5 (SignalValue.fromStr "00z")).add_event 7
          (SignalValue.fromStr "111")).add_event 7 (SignalValue.fromStr "z")).event_at 7).isSome
      = true := by
  decide

/-- C4 (amended): on any signal whose event list satisfies the (always
maintained) sortedness invariant, calling `add_event(t, v)` twice in a row
leaves the same state as calling it once; and when `v` *expanded to the
signal's width* equals the value the signal holds immediately before `t`,
the call leaves no event stored at timestamp `t` — the deletion condition
compares the expanded value, not `v` itself. -/
theorem claim_C4 (s : Signal) (t : Int) (v : SignalValue)
    (h : Signal.ESorted s.events) :
    (s.add_event t v).add_event t v = s.add_event t v ∧
    ((s.value_before t).eqv (v.expand s.width) = true →
      ∀ e ∈ (s.add_event t v).events, e.timestamp ≠ t) :=
  ⟨Signal.add_event_idem s t v h,
    fun hpe => Signal.add_event_no_event_at s t v h hpe⟩

/-- C4 witness: both conclusions evaluated on a concrete signal (inserting
the prior value `u` at `t = 10` into a fresh 1-bit signal). -/
theorem claim_C4_witness :
    (((Signal.new "t" "test" 1).add_event 10 (SignalValue.fromStr "u")).add_event 10
        (SignalValue.fromStr "u")
      = (Signal.new "t" "test" 1).add_event 10 (SignalValue.fromStr "u")) ∧
    (∀ e ∈ ((Signal.new "t" "test" 1).add_event 10 (SignalValue.fromStr "u")).events,
        e.timestamp ≠ 10) := by
  have h := claim_C4 (Signal.new "t" "test" 1) 10 (SignalValue.fromStr "u") (by decide)
  exact ⟨h.1, h.2 (by decide)⟩

namespace SignalValue

/-- Bit of a literal at an index (LSB is index 0); `none` for symbols or
out of range. -/
def bitAt (v : SignalValue) (i : Nat) : Option BitValue :=
  match v with
  | .literal bs _ => bs[i]?
  | .symbol _ => none

/-- The padding bit `expand` actually uses: derived from the bit at index
0 — the least-significant bit — with `High` (also the empty default)
mapped to `Low`. -/
def lsbExpandBit (bits : List BitValue) : BitValue :=
  let b := bits.head?.getD BitValue.high
  if b = BitValue.high then BitValue.low else b

end SignalValue

/-- C5 counterexample: for the literal `b z1` (LSB-first `[High, HighZ]`,
so the most-significant bit is `HighZ`), the claim's MSB rule predicts
padding with `HighZ`; `expand`, which reads `literal.get(0)` — the
least-significant bit, here `High` — pads with `Low` instead. -/
theorem claim_C5_counterexample :
    (SignalValue.literal [BitValue.high, BitValue.highZ] .hex).expand 3
      = SignalValue.literal [BitValue.high, BitValue.highZ, BitValue.low] .hex ∧
    (SignalValue.literal [BitValue.high, BitValue.highZ] .hex).expand 3
      ≠ SignalValue.literal [BitValue.high, BitValue.highZ, BitValue.highZ] .hex := by
  decide

/-- C5 (amended): `expand(w)` leaves symbols and literals of width `≥ w`
unchanged; on shorter literals it left-pads up to width `w`, preserving the
existing bits, and every added bit is determined by the literal's
least-significant bit (index 0): `High` — and the empty literal — pad with
`Low`, any other bit is repeated. -/
theorem claim_C5 :
    (∀ (s : String) (w : Nat), (SignalValue.symbol s).expand w = SignalValue.symbol s) ∧
    (∀ (bits : List BitValue) (fmt : ValueFormat) (w : Nat), w ≤ bits.length →
        (SignalValue.literal bits fmt).expand w = SignalValue.literal bits fmt) ∧
    (∀ (bits : List BitValue) (fmt : ValueFormat) (w : Nat),
        ((SignalValue.literal bits fmt).expand w).width = max bits.length w) ∧
    (∀ (bits : List BitValue) (fmt : ValueFormat) (w i : Nat), i < bits.length →
        ((SignalValue.literal bits fmt).expand w).bitAt i = bits[i]?) ∧
    (∀ (bits : List BitValue) (fmt : ValueFormat) (w i : Nat),
        bits.length ≤ i → i < w →
        ((SignalValue.literal bits fmt).expand w).bitAt i
          = some (SignalValue.lsbExpandBit bits)) := by
  refine ⟨fun s w => rfl, ?_, ?_, ?_, ?_⟩
  · intro bits fmt w hw
    simp [SignalValue.expand, Nat.sub_eq_zero_of_le hw]
  · intro bits fmt w
    simp [SignalValue.expand, SignalValue.width]
    omega
  · intro bits fmt w i hi
    simp [SignalValue.expand, SignalValue.bitAt, List.getElem?_append, hi]
  · intro bits fmt w i hlen hw
    simp only [SignalValue.expand, SignalValue.bitAt, List.getElem?_append,
      if_neg (by omega : ¬ i < bits.length)]
    rw [List.getElem?_replicate, if_pos (by omega)]
    rfl

/-- C5 witness: the padding clause evaluated at the literal `[HighZ]`
expanded to three bits. -/
theorem claim_C5_witness :
    ((SignalValue.literal [BitValue.highZ] .hex).expand 3).bitAt 2
      = some (SignalValue.lsbExpandBit [BitValue.highZ]) :=
  claim_C5.2.2.2.2 [BitValue.highZ] .hex 3 2 (by decide) (by decide)

/-! ## Association lists (`BTreeMap`/`BTreeSet` by `String` key)

The store keeps its `id → Signal` map in a `BTreeMap`; only lookup,
overwrite-on-insert and iteration are used.  The map is modelled as an
association list; `alistInsert` replaces the value of an existing key and
otherwise appends (the `BTreeMap` key ordering is observable only through
`find_signals`/`format_stats`, which no claim exercises). -/

def alistFind? {β : Type} (k : String) : List (String × β) → Option β
  | [] => none
  | (k', v) :: rest => if k' = k then some v else alistFind? k rest

def alistInsert {β : Type} (k : String) (v : β) : List (String × β) → List (String × β)
  | [] => [(k, v)]
  | (k', v') :: rest =>
      if k' = k then (k, v) :: rest else (k', v') :: alistInsert k v rest

/-! ## Scope tree (`src/signaldb/scope.rs`)

`Scope` is a named node with a set of signal ids and a map of sub-scopes.
(The denormalized `path` field is not modelled: no claim observes it.) -/

inductive Scope where
  | mk (name : String) (signals : List String) (scopes : List (String × Scope))

namespace Scope

def name : Scope → String
  | .mk n _ _ => n

def signals : Scope → List String
  | .mk _ s _ => s

def scopes : Scope → List (String × Scope)
  | .mk _ _ s => s

/-- `Scope::new`. -/
def new (name : String) : Scope :=
  .mk name [] []

/-- `Scope::add_scope`: idempotent creation of a nested path. -/
def add_scope : Scope → List String → Scope
  | s, [] => s
  | .mk n sigs sub, nm :: rest =>
      match alistFind? nm sub with
      | some child => .mk n sigs (alistInsert nm (child.add_scope rest) sub)
      | none => .mk n sigs (alistInsert nm ((Scope.new nm).add_scope rest) sub)

/-- `Scope::get_scope_by_path`. -/
def get_scope_by_path : Scope → List String → Option Scope
  | s, [] => some s
  | s, nm :: rest =>
      match alistFind? nm s.scopes with
      | some child => child.get_scope_by_path rest
      | none => none

/-- `Scope::add_signal` (the store registers signals by id). -/
def add_signal (s : Scope) (id : String) : Scope :=
  .mk s.name (s.signals ++ [id]) s.scopes

/-- `get_scope_by_path` followed by `add_signal` on the found node — the
functional rendering of `scopes.get_scope_by_path(scope)` returning a
mutable reference that `SignalDB::declare_signal` updates. -/
def add_signal_at : Scope → List String → String → Option Scope
  | s, [], id => some (s.add_signal id)
  | s, nm :: rest, id =>
      match alistFind? nm s.scopes with
      | some child =>
          match child.add_signal_at rest id with
          | some child' => some (.mk s.name s.signals (alistInsert nm child' s.scopes))
          | none => none
      | none => none

/-- `add_signal_at` succeeds exactly when the path resolves. -/
theorem add_signal_at_isSome (s : Scope) (path : List String) (id : String) :
    (s.add_signal_at path id).isSome = (s.get_scope_by_path path).isSome := by
  induction path generalizing s with
  | nil => rfl
  | cons nm rest ih =>
      rw [add_signal_at, get_scope_by_path]
      cases alistFind? nm s.scopes with
      | none => rfl
      | some child =>
          dsimp only
          rw [← ih child]
          cases child.add_signal_at rest id <;> rfl

end Scope

/-! ## The signal database (`src/signaldb/db.rs`)

Concurrency is modelled away: the per-field mutexes guard single
operations, so the sequential state-machine below is the per-operation
semantics.  The condition-variable latch becomes the `initialized` flag;
`wait_until_initialized` returns `none` when it would block. -/

/-- `SignalNotFound` error. -/
structure SignalNotFound where
  signal_id : String
deriving DecidableEq, Repr

/-- `InitializationError`: carries the last status string. -/
structure InitializationError where
  msg : String
deriving DecidableEq, Repr

structure SignalDB where
  scope : Scope
  signals : List (String × Signal)
  timestamps : List Int
  now : Int
  status : String
  initialized : Bool
  valid : Bool

namespace SignalDB

/-- `SignalDB::new`. -/
def new : SignalDB :=
  { scope := Scope.new "top"
    signals := []
    timestamps := [0]
    now := 0
    status := "Test"
    initialized := false
    valid := true }

/-- `SignalDB::mark_as_initialized`. -/
def mark_as_initialized (db : SignalDB) : SignalDB :=
  { db with initialized := true }

/-- `SignalDB::mark_as_invalid`. -/
def mark_as_invalid (db : SignalDB) : SignalDB :=
  { db with valid := false }

/-- `SignalDB::is_valid`. -/
def is_valid (db : SignalDB) : Bool :=
  db.valid

/-- `SignalDB::set_status`. -/
def set_status (db : SignalDB) (s : String) : SignalDB :=
  { db with status := s }

/-- `SignalDB::get_status`. -/
def get_status (db : SignalDB) : String :=
  db.status

/-- `SignalDB::wait_until_initialized`: `none` models blocking on the
condition variable (the latch was never released); once the latch is
released the call returns `Ok` when valid and an `InitializationError`
carrying the status string otherwise. -/
def wait_until_initialized (db : SignalDB) : Option (Except InitializationError Unit) :=
  if db.initialized then
    some (if db.valid then .ok () else .error ⟨db.get_status⟩)
  else none

/-- `SignalDB::create_scope`. -/
def create_scope (db : SignalDB) (path : List String) : SignalDB :=
  { db with scope := db.scope.add_scope path }

/-- `SignalDB::declare_signal`: registers the signal in the id map, then
resolves the scope path; an unresolved path hits
`panic!("Scope {:?} is not defined", scope)`, modelled as `none`. -/
def declare_signal (db : SignalDB) (scope : List String) (signal : Signal) :
    Option SignalDB :=
  let signals := alistInsert signal.id signal db.signals
  match db.scope.add_signal_at scope signal.id with
  | some sc => some { db with signals := signals, scope := sc }
  | none => none

/-- `SignalDB::set_time`: monotonic writes only. -/
def set_time (db : SignalDB) (t : Int) : SignalDB :=
  if t > db.now then { db with timestamps := db.timestamps ++ [t], now := t }
  else db

/-- `SignalDB::insert_event`: advances time, then delegates to the signal;
an unknown id is reported after the time was already advanced. -/
def insert_event (db : SignalDB) (signal_id : String) (t : Int) (v : SignalValue) :
    SignalDB × Except SignalNotFound Unit :=
  let db := db.set_time t
  match alistFind? signal_id db.signals with
  | some s =>
      ({ db with signals := alistInsert signal_id (s.add_event t v) db.signals }, .ok ())
  | none => (db, .error ⟨signal_id⟩)

/-- `SignalDB::set_current_value`. -/
def set_current_value (db : SignalDB) (signal_id : String) (v : SignalValue) :
    SignalDB × Except SignalNotFound Unit :=
  db.insert_event signal_id db.now v

/-- `SignalDB::get_timestamps` (the `EventIterator` snapshot). -/
def get_timestamps (db : SignalDB) : List Int :=
  db.timestamps

/-- `SignalDB::value_at`. -/
def value_at (db : SignalDB) (signal_id : String) (t : Int) :
    Except SignalNotFound SignalValue :=
  match alistFind? signal_id db.signals with
  | some s => .ok (s.value_at t)
  | none => .error ⟨signal_id⟩

/-- `SignalDB::event_at`. -/
def event_at (db : SignalDB) (signal_id : String) (t : Int) :
    Except SignalNotFound (Option SignalValue) :=
  match alistFind? signal_id db.signals with
  | some s => .ok (s.event_at t)
  | none => .error ⟨signal_id⟩

/-- `SignalDB::events_between`: a window reaching past `now` yields the
invalid placeholder without consulting the signal map. -/
def events_between (db : SignalDB) (signal_id : String) (b e : Int) :
    Except SignalNotFound (SignalValue × Nat × SignalValue) :=
  if e > db.now then .ok (SignalValue.invalid, 0, SignalValue.invalid)
  else
    match alistFind? signal_id db.signals with
    | some s => .ok (s.events_between b e)
    | none => .error ⟨signal_id⟩

end SignalDB

/-! ## Search AST (`src/search/expr.rs`) and evaluator (`src/search/types.rs`) -/

/-- `ValueAst`: right-hand side of a relation. -/
inductive ValueAst where
  | literal (v : SignalValue)
  | id (s : String)
deriving DecidableEq, Repr

/-- `ExprAst`. -/
inductive ExprAst where
  | equal (id : String) (v : ValueAst)
  | transition (id : String) (v : ValueAst)
  | anyTransition (id : String)
  | not (e : ExprAst)
  | and (l r : ExprAst)
  | or (l r : ExprAst)
  | after (t : Int)
  | before (t : Int)
deriving DecidableEq, Repr

/-- `TimeDescr` (from `src/signaldb/time.rs`): a finding is a point or a
half-open period. -/
inductive TimeDescr where
  | point (t : Int)
  | period (b e : Int)
deriving DecidableEq, Repr

namespace TimeDescr

/-- The timestamp of a point, or the begin of a period. -/
def begin : TimeDescr → Int
  | .point t => t
  | .period b _ => b

/-- The timestamp of a point, or the end of a period. -/
def endT : TimeDescr → Int
  | .point t => t
  | .period _ e => e

/-- `Display for TimeDescr`: `t` or `begin-end`. -/
def render : TimeDescr → String
  | .point t => toString t
  | .period b e => toString b ++ "-" ++ toString e

/-- Structural well-formedness of a finding: a period is non-empty. -/
def wfB : TimeDescr → Bool
  | .point _ => true
  | .period b e => b < e

end TimeDescr

/-- `ExprType`: whether a sub-expression matched as a level or as a
transition. -/
inductive ExprType where
  | transition
  | level
deriving DecidableEq, Repr

/-- `BitOr for ExprType`. -/
def ExprType.bitor : ExprType → ExprType → ExprType
  | .transition, _ => .transition
  | _, .transition => .transition
  | _, _ => .level

/-- `EvalResult`. -/
structure EvalResult where
  result : Bool
  ty : ExprType
deriving DecidableEq, Repr

/-- `BitOr for EvalResult`. -/
def EvalResult.bitor (a b : EvalResult) : EvalResult :=
  let result := a.result || b.result
  let ty :=
    if result then
      if a.result = b.result then a.ty.bitor b.ty
      else if a.result then a.ty
      else b.ty
    else ExprType.level
  ⟨result, ty⟩

/-- `Search`. -/
structure Search where
  findings : List TimeDescr
  expr : ExprAst
  current_period : Option Int
  cursor : Option Int
deriving DecidableEq, Repr

namespace Search

/-- `Search::new` after the expression string was parsed: empty findings,
no open period, cursor at the origin. -/
def mkNew (expr : ExprAst) : Search :=
  { findings := [], expr := expr, current_period := none, cursor := some 0 }

/-- `Search::eval_value_at`. -/
def eval_value_at (v : ValueAst) (db : SignalDB) (t : Int) :
    Except SignalNotFound SignalValue :=
  match v with
  | .literal v => .ok v
  | .id id => db.value_at id t

/-- `Search::eval_at`. -/
def eval_at (expr : ExprAst) (db : SignalDB) (t : Int) :
    Except SignalNotFound EvalResult :=
  match expr with
  | .equal id v => do
      let lhs ← db.value_at id t
      let rhs ← eval_value_at v db t
      pure ⟨lhs.eqv rhs, ExprType.level⟩
  | .transition id v => do
      let evt ← db.event_at id t
      match evt with
      | some evt => do
          let rhs ← eval_value_at v db t
          pure ⟨evt.eqv rhs, ExprType.transition⟩
      | none => pure ⟨false, ExprType.transition⟩
  | .anyTransition id => do
      let evt ← db.event_at id t
      pure ⟨evt.isSome, ExprType.transition⟩
  | .and le re => do
      let ler ← eval_at le db t
      if ler.result = false then pure ler
      else do
        let rer ← eval_at re db t
        pure ⟨ler.result && rer.result, ler.ty.bitor rer.ty⟩
  | .or le re => do
      let ler ← eval_at le db t
      if ler.result then pure ler
      else do
        let rer ← eval_at re db t
        pure (ler.bitor rer)
  | .not e => do
      let er ← eval_at e db t
      let result := !er.result
      pure ⟨result, if result then er.ty else ExprType.level⟩
  | .after t' => pure ⟨t > t', ExprType.level⟩
  | .before t' => pure ⟨t < t', ExprType.level⟩

/-- `Search::search_at`: skip timestamps before the cursor, then update
points / open or close the current period. -/
def search_at (s : Search) (db : SignalDB) (t : Int) :
    Except SignalNotFound Search :=
  match s.cursor with
  | some cursor =>
      if t < cursor then .ok s
      else searchStep s db t
  | none => searchStep s db t
where
  /-- The body of `search_at` after the cursor check. -/
  searchStep (s : Search) (db : SignalDB) (t : Int) : Except SignalNotFound Search := do
    let res ← eval_at s.expr db t
    let s :=
      match res.ty with
      | ExprType.transition =>
          if res.result && s.current_period.isNone then
            { s with findings := s.findings ++ [TimeDescr.point t] }
          else s
      | ExprType.level =>
          if res.result && s.current_period.isNone then
            { s with current_period := some t }
          else if !res.result && s.current_period.isSome then
            { s with
              findings := s.findings ++ [TimeDescr.period (s.current_period.getD 0) t]
              current_period := none }
          else s
    pure { s with cursor := some t }

/-- `Search::finish`. -/
def finish (s : Search) : Search :=
  { s with cursor := none }

/-- The timestamp loop of `Search::search_all`. -/
def searchAllAux (s : Search) (db : SignalDB) : List Int → Except SignalNotFound Search
  | [] => .ok s
  | t :: ts => do
      let s' ← s.search_at db t
      searchAllAux s' db ts

/-- `Search::search_all`: reset the findings, evaluate every store
timestamp, then finish. -/
def search_all (s : Search) (db : SignalDB) : Except SignalNotFound Search := do
  let s := { s with findings := [], current_period := none }
  let s' ← searchAllAux s db db.get_timestamps
  pure s'.finish

/-- `Search::format_findings`: one line per finding. -/
def format_findings (s : Search) : String :=
  s.findings.foldl (fun acc td => acc ++ td.render ++ "\n") ""

/-- Key of `Search::search_finding`'s `binary_search_by_key`: a period
maps to the queried timestamp while it contains it, to its begin before
it, and to `end - 1` after it. -/
def findingKey (query : Int) : TimeDescr → Int
  | .point p => p
  | .period b e =>
      if b ≤ query ∧ query < e then query
      else if query ≤ b then b
      else e - 1

/-- `Search::search_finding`. -/
def search_finding (s : Search) (t : Int) : SeekResult :=
  seek (findingKey t) t s.findings

/-- `Search::get_next_finding`: the finding after the seek position, or
the pending `current_period` when it lies strictly after `t`. -/
def get_next_finding (s : Search) (t : Int) : Option Int :=
  let index :=
    match s.search_finding t with
    | .found index => index + 1
    | .notFound index => index
  match s.findings[index]? with
  | some td => some td.begin
  | none =>
      match s.current_period with
      | some cp => if cp > t then some cp else none
      | none => none

end Search

/-- `SignalDB::search_all` (db.rs): parse-free entry — run a prepared
search over the store and format its findings; `none` when evaluation
reports an unknown signal. -/
def SignalDB.run_search (db : SignalDB) (s : Search) : Option (List TimeDescr × String) :=
  match s.search_all db with
  | .ok s' => some (s'.findings, s'.format_findings)
  | .error _ => none

/-! ## Sorted, non-overlapping findings and `get_next_finding` (C8) -/

/-- The findings invariant of a completed search: entries are sorted and
non-overlapping (each ends strictly before the next begins, as `search_all`
produces them) and every period is non-empty. -/
def FindingsWF (l : List TimeDescr) : Prop :=
  l.Chain' (fun f g => f.endT < g.begin) ∧ ∀ f ∈ l, f.wfB = true

instance : ∀ l, Decidable (FindingsWF l) :=
  fun _ => inferInstanceAs (Decidable (_ ∧ _))

theorem wf_begin_le_endT {f : TimeDescr} (h : f.wfB = true) : f.begin ≤ f.endT := by
  cases f with
  | point t => simp [TimeDescr.begin, TimeDescr.endT]
  | period b e =>
      simp only [TimeDescr.wfB, decide_eq_true_eq] at h
      simp only [TimeDescr.begin, TimeDescr.endT]
      omega

theorem key_lt_imp {q : Int} {f : TimeDescr} (h : Search.findingKey q f < q) :
    f.begin < q := by
  cases f with
  | point p => simpa [Search.findingKey, TimeDescr.begin] using h
  | period b e =>
      rw [Search.findingKey] at h
      rw [TimeDescr.begin]
      split_ifs at h with h1 h2 <;> omega

theorem key_eq_imp {q : Int} {f : TimeDescr} (hwf : f.wfB = true)
    (h : Search.findingKey q f = q) : f.begin ≤ q ∧ q ≤ f.endT := by
  cases f with
  | point p =>
      rw [Search.findingKey] at h
      simp [TimeDescr.begin, TimeDescr.endT, h]
  | period b e =>
      simp only [TimeDescr.wfB, decide_eq_true_eq] at hwf
      rw [Search.findingKey] at h
      simp only [TimeDescr.begin, TimeDescr.endT]
      split_ifs at h with h1 h2 <;> omega

theorem key_gt_imp {q : Int} {f : TimeDescr} (h : q < Search.findingKey q f) :
    q < f.begin := by
  cases f with
  | point p => simpa [Search.findingKey, TimeDescr.begin] using h
  | period b e =>
      rw [Search.findingKey] at h
      rw [TimeDescr.begin]
      split_ifs at h with h1 h2 <;> omega

instance : IsTrans TimeDescr fun f g => f.begin < g.begin :=
  ⟨fun _ _ _ h₁ h₂ => lt_trans h₁ h₂⟩

/-- Under the findings invariant, begins strictly increase. -/
theorem begins_chain : ∀ {l : List TimeDescr}, FindingsWF l →
    List.Chain' (fun f g => f.begin < g.begin) l
  | [], _ => List.chain'_nil
  | [f], _ => List.chain'_singleton f
  | f :: g :: rs, h => by
      rw [List.chain'_cons]
      refine ⟨?_, begins_chain ⟨(List.chain'_cons.mp h.1).2,
        fun x hx => h.2 x (by simp [hx])⟩⟩
      have hrel := (List.chain'_cons.mp h.1).1
      have := wf_begin_le_endT (h.2 f (by simp))
      omega

theorem begins_pairwise {l : List TimeDescr} (h : FindingsWF l) :
    l.Pairwise fun f g => f.begin < g.begin :=
  (List.chain'_iff_pairwise).mp (begins_chain h)

/-- C8 (amended): on a completed search whose findings are sorted and
non-overlapping, `get_next_finding(t)` returns the smallest begin (point
timestamp or period begin) among the findings strictly greater than `t`;
when no finding begins strictly after `t` it falls through to the open
`current_period` if that begins strictly after `t`, and only otherwise
returns `None`. -/
theorem claim_C8 (s : Search) (q : Int) (h : FindingsWF s.findings) :
    match s.get_next_finding q with
    | some r =>
        (∃ f ∈ s.findings, f.begin = r ∧ q < r ∧
          ∀ g ∈ s.findings, q < g.begin → r ≤ g.begin)
        ∨ ((∀ g ∈ s.findings, g.begin ≤ q) ∧ s.current_period = some r ∧ q < r)
    | none =>
        (∀ g ∈ s.findings, g.begin ≤ q) ∧ ∀ cp ∈ s.current_period, cp ≤ q := by
  have hseek := Signal.seek_eq (Search.findingKey q) q s.findings
  have happ := List.takeWhile_append_dropWhile
    (p := fun x => decide (Search.findingKey q x < q)) (l := s.findings)
  have hl₁ : ∀ f ∈ s.findings.takeWhile (fun x => decide (Search.findingKey q x < q)),
      f.begin < q := by
    intro f hf
    have := List.mem_takeWhile_imp hf
    exact key_lt_imp (by simpa using this)
  have hpw := begins_pairwise h
  unfold Search.get_next_finding Search.search_finding
  rw [hseek]
  cases hdw : s.findings.dropWhile (fun x => decide (Search.findingKey q x < q)) with
  | nil =>
      simp only [List.head?_nil]
      have hall : (s.findings.takeWhile fun x => decide (Search.findingKey q x < q))
          = s.findings := by
        conv_rhs => rw [← happ]
        rw [hdw, List.append_nil]
      have hle : ∀ g ∈ s.findings, g.begin ≤ q := by
        intro g hg
        refine le_of_lt (hl₁ g ?_)
        rw [hall]
        exact hg
      have hidx : s.findings[(s.findings.takeWhile
          fun x => decide (Search.findingKey q x < q)).length]? = none := by
        rw [hall]
        exact List.getElem?_eq_none (le_refl _)
      rw [hidx]
      dsimp only
      cases hcp : s.current_period with
      | none => exact ⟨hle, by simp⟩
      | some cp =>
          dsimp only
          by_cases hcq : cp > q
          · rw [if_pos hcq]
            exact Or.inr ⟨hle, rfl, hcq⟩
          · rw [if_neg hcq]
            refine ⟨hle, ?_⟩
            intro c hc
            simp only [Option.mem_def, Option.some.injEq] at hc
            subst hc
            omega
  | cons x xs =>
      have hsplit : s.findings
          = (s.findings.takeWhile fun x => decide (Search.findingKey q x < q)) ++ x :: xs := by
        conv_lhs => rw [← happ]
        rw [hdw]
      have hxk : ¬ Search.findingKey q x < q := by
        have := Signal.dropWhile_head_false _ _ _ _ hdw
        simpa using this
      have hx_mem : x ∈ s.findings := by
        rw [hsplit]
        exact List.mem_append.mpr (Or.inr (by simp))
      have hxs_mem : ∀ g ∈ xs, g ∈ s.findings := by
        intro g hg
        rw [hsplit]
        exact List.mem_append.mpr (Or.inr (by simp [hg]))
      have hpw₂ : (x :: xs).Pairwise fun f g => f.begin < g.begin := by
        rw [hsplit] at hpw
        exact (List.pairwise_append.mp hpw).2.1
      generalize hgen : (s.findings.takeWhile fun x => decide (Search.findingKey q x < q)) = L at *
      dsimp only [List.head?_cons]
      by_cases hxq : Search.findingKey q x = q
      · rw [if_pos hxq]
        dsimp only
        have hxb := key_eq_imp (h.2 x hx_mem) hxq
        have hidx : s.findings[L.length + 1]? = xs[0]? := by
          rw [hsplit, List.getElem?_append, if_neg (by omega)]
          have harith : L.length + 1 - L.length = 1 := by omega
          rw [harith]
          simp
        rw [hidx]
        cases hxs : xs with
        | nil =>
            simp only [List.getElem?_nil]
            have hle : ∀ g ∈ s.findings, g.begin ≤ q := by
              intro g hg
              rw [hsplit, hxs] at hg
              rcases List.mem_append.mp hg with hg | hg
              · exact le_of_lt (hl₁ g hg)
              · rcases List.mem_cons.mp hg with hg | hg
                · subst hg; exact hxb.1
                · simp at hg
            cases hcp : s.current_period with
            | none => exact ⟨hle, by simp⟩
            | some cp =>
                dsimp only
                by_cases hcq : cp > q
                · rw [if_pos hcq]
                  exact Or.inr ⟨hle, rfl, hcq⟩
                · rw [if_neg hcq]
                  refine ⟨hle, ?_⟩
                  intro c hc
                  simp only [Option.mem_def, Option.some.injEq] at hc
                  subst hc
                  omega
        | cons y ys =>
            simp only [List.getElem?_cons_zero]
            left
            refine ⟨y, hxs_mem y (by simp [hxs]), rfl, ?_, ?_⟩
            · have hrel : x.endT < y.begin := by
                have hch := h.1
                rw [hsplit, hxs, List.chain'_append] at hch
                exact (List.chain'_cons.mp hch.2.1).1
              omega
            · intro g hg hq
              rw [hsplit, hxs] at hg
              rcases List.mem_append.mp hg with hg | hg
              · have := hl₁ g hg; omega
              · rcases List.mem_cons.mp hg with hg | hg
                · subst hg
                  have := hxb.1
                  omega
                · rcases List.mem_cons.mp hg with hg | hg
                  · subst hg; exact le_refl _
                  · rw [hxs] at hpw₂
                    have := (List.pairwise_cons.mp
                      (List.pairwise_cons.mp hpw₂).2).1 g hg
                    omega
      · rw [if_neg hxq]
        dsimp only
        have hidx : s.findings[L.length]? = some x := by
          rw [hsplit, List.getElem?_append, if_neg (by omega)]
          simp
        rw [hidx]
        dsimp only
        left
        have hqx : q < x.begin := by
          refine key_gt_imp ?_
          omega
        refine ⟨x, hx_mem, rfl, hqx, ?_⟩
        intro g hg hq
        rw [hsplit] at hg
        rcases List.mem_append.mp hg with hg | hg
        · have := hl₁ g hg; omega
        · rcases List.mem_cons.mp hg with hg | hg
          · subst hg; exact le_refl _
          · have := (List.pairwise_cons.mp hpw₂).1 g hg
            omega

/-- The store used to refute C8 as frozen: a 1-bit wire `0` that is `0`
at `0` and becomes `1` at `5`, built through the store's own mutators. -/
def dbC8 : SignalDB :=
  match (SignalDB.new.create_scope ["top"]).declare_signal ["top"]
      (Signal.new "0" "foo" 1) with
  | some db =>
      ((db.insert_event "0" 0 (SignalValue.new 0)).1.insert_event "0" 5
        (SignalValue.new 1)).1
  | none => SignalDB.new

/-- The completed search `$0 = 1` over `dbC8`: the level condition still
holds at the last timestamp, so it stays in `current_period` and the
findings list is empty. -/
def searchC8 : Search :=
  match (Search.mkNew (ExprAst.equal "0" (ValueAst.literal (SignalValue.new 1)))).search_all
      dbC8 with
  | .ok s => s
  | .error _ => Search.mkNew (ExprAst.equal "0" (ValueAst.literal (SignalValue.new 1)))

/-- C8 counterexample: a completed search with no findings at all for
which `get_next_finding(0)` nevertheless returns `Some 5` — the still-open
`current_period` is reported even though no finding begins after `t`, so
the claim's "returns None when no finding begins strictly after t" is
false. -/
theorem claim_C8_counterexample :
    searchC8.findings = [] ∧ searchC8.current_period = some 5 ∧
    searchC8.get_next_finding 0 = some 5 := by
  decide

/-- C8 witness: the amended statement evaluated on a concrete completed
search with one period and one point. -/
theorem claim_C8_witness :
    (match Search.get_next_finding
        { findings := [TimeDescr.period 2 4, TimeDescr.point 7]
          expr := ExprAst.anyTransition "0"
          current_period := none
          cursor := none } 3 with
    | some r =>
        (∃ f ∈ [TimeDescr.period 2 4, TimeDescr.point 7], f.begin = r ∧ (3 : Int) < r ∧
          ∀ g ∈ [TimeDescr.period 2 4, TimeDescr.point 7], (3 : Int) < g.begin → r ≤ g.begin)
        ∨ ((∀ g ∈ [TimeDescr.period 2 4, TimeDescr.point 7], g.begin ≤ (3 : Int)) ∧
            (none : Option Int) = some r ∧ (3 : Int) < r)
    | none =>
        (∀ g ∈ [TimeDescr.period 2 4, TimeDescr.point 7], g.begin ≤ (3 : Int)) ∧
        ∀ cp ∈ (none : Option Int), cp ≤ (3 : Int)) :=
  claim_C8
    { findings := [TimeDescr.period 2 4, TimeDescr.point 7]
      expr := ExprAst.anyTransition "0"
      current_period := none
      cursor := none } 3 (by decide)

/-! ## Search expression parser (`src/search/parser.rs`)

The nom combinators are modelled on `List Char`: a parser returns
`none` on failure (nom's `Err::Error`, which `alt` backtracks over) and
`some (rest, value)` on success.  The mutually recursive grammar
productions take fuel; `4 * (length + 1)` is always enough since every
fourth nested level consumes at least one character. -/

/-- Natural number denoted by a run of decimal digits. -/
def digitsToNat (cs : List Char) : Nat :=
  cs.foldl (fun acc c => acc * 10 + (c.toNat - '0'.toNat)) 0

/-- Rust `usize`/`u64` `from_str`: an optional `+` sign followed by at
least one digit. -/
def listNatParse? (cs : List Char) : Option Nat :=
  match cs with
  | [] => none
  | '+' :: rest =>
      if rest ≠ [] ∧ rest.all Char.isDigit then some (digitsToNat rest) else none
  | _ => if cs.all Char.isDigit then some (digitsToNat cs) else none

/-- Rust `i64` `from_str`: an optional sign followed by at least one
digit. -/
def listIntParse? (cs : List Char) : Option Int :=
  match cs with
  | '-' :: rest => (listNatParse? rest).map fun n => -(n : Int)
  | _ => (listNatParse? cs).map fun n => (n : Int)

/-- Split a character list at every occurrence of `c` (Rust
`str::split`). -/
def splitOnChar (c : Char) : List Char → List (List Char)
  | [] => [[]]
  | x :: rest =>
      let r := splitOnChar c rest
      if x = c then [] :: r
      else
        match r with
        | h :: t => (x :: h) :: t
        | [] => [[x]]

namespace SearchParser

/-- `is_digit_start`. -/
def isDigitStart (c : Char) : Bool :=
  c.isDigit && c ≠ '0'

/-- `is_binary_digit`. -/
def isBinaryDigit (c : Char) : Bool :=
  c = '0' || c = '1' || c = 'u' || c = 'z' || c = 'w' || c = '-'

/-- `is_ascii_hexdigit`. -/
def isHexDigit (c : Char) : Bool :=
  c.isDigit || ('a' ≤ c && c ≤ 'f') || ('A' ≤ c && c ≤ 'F')

/-- Unicode `Cc` (Rust `char::is_control`). -/
def isControlChar (c : Char) : Bool :=
  c.val < 32 || (127 ≤ c.val && c.val ≤ 159)

/-- `is_identifier`: anything that is neither whitespace nor control. -/
def isIdentChar (c : Char) : Bool :=
  !(c.isWhitespace || isControlChar c)

/-- nom `tag`. -/
def pTag (pat : String) (s : List Char) : Option (List Char) :=
  if pat.data.isPrefixOf s then some (s.drop pat.data.length) else none

/-- nom `take_while1`: the matched run and the rest. -/
def pTakeWhile1 (p : Char → Bool) (s : List Char) : Option (List Char × List Char) :=
  match s.takeWhile p with
  | [] => none
  | run => some (s.dropWhile p, run)

/-- `opt(whitespace)`. -/
def pOptWs (s : List Char) : List Char :=
  s.dropWhile Char.isWhitespace

/-- The `token` combinator: optional whitespace on either side. -/
def pToken {α} (p : List Char → Option (List Char × α)) (s : List Char) :
    Option (List Char × α) :=
  match p (pOptWs s) with
  | some (rest, a) => some (pOptWs rest, a)
  | none => none

/-- nom `number`: `b…` binary, `h…` hex, `0`, or a nonzero decimal. -/
def pNumber (s : List Char) : Option (List Char × ValueAst) :=
  match pTag "b" s with
  | some rest =>
      match pTakeWhile1 isBinaryDigit rest with
      | some (rest, run) => some (rest, ValueAst.literal (SignalValue.fromStr (String.mk run)))
      | none => pNumberTail s
  | none => pNumberTail s
where
  /-- The remaining `alt` branches of `number`. -/
  pNumberTail (s : List Char) : Option (List Char × ValueAst) :=
    match pTag "h" s with
    | some rest =>
        match pTakeWhile1 isHexDigit rest with
        | some (rest, run) =>
            some (rest, ValueAst.literal (SignalValue.from_hex (String.mk run)))
        | none => pNumberDec s
    | none => pNumberDec s
  /-- The decimal branches of `number`. -/
  pNumberDec (s : List Char) : Option (List Char × ValueAst) :=
    match pTag "0" s with
    | some rest => some (rest, ValueAst.literal (SignalValue.new 0))
    | none =>
        match s with
        | c :: rest =>
            if isDigitStart c then
              let run := rest.takeWhile Char.isDigit
              some (rest.dropWhile Char.isDigit,
                ValueAst.literal (SignalValue.new (digitsToNat (c :: run))))
            else none
        | [] => none

/-- nom `decimal`. -/
def pDecimal (s : List Char) : Option (List Char × Int) :=
  match pTag "0" s with
  | some rest => some (rest, 0)
  | none =>
      match s with
      | c :: rest =>
          if isDigitStart c then
            let run := rest.takeWhile Char.isDigit
            some (rest.dropWhile Char.isDigit, (digitsToNat (c :: run) : Int))
          else none
      | [] => none

/-- nom `identifier`: `$` followed by identifier characters. -/
def pIdentifier (s : List Char) : Option (List Char × ValueAst) :=
  match pTag "$" s with
  | some rest =>
      match pTakeWhile1 isIdentChar rest with
      | some (rest, run) => some (rest, ValueAst.id (String.mk run))
      | none => none
  | none => none

/-- `alt` over a list of tags. -/
def pTags (pats : List String) (s : List Char) : Option (List Char) :=
  match pats with
  | [] => none
  | pat :: rest =>
      match pTag pat s with
      | some r => some r
      | none => pTags rest s

/-- `tag` wrapped to the shape `pToken` expects. -/
def pTagU (pat : String) (s : List Char) : Option (List Char × Unit) :=
  (pTag pat s).map fun r => (r, ())

/-- nom `any`: `token(identifier)` as an any-transition term. -/
def pAnyTransition (s : List Char) : Option (List Char × ExprAst) :=
  match pToken pIdentifier s with
  | some (rest, ValueAst.id id) => some (rest, ExprAst.anyTransition id)
  | _ => none

mutual

/-- nom `value`: `alt((number, identifier, value_parens))`. -/
def pValue (fuel : Nat) (s : List Char) : Option (List Char × ValueAst) :=
  match fuel with
  | 0 => none
  | fuel + 1 =>
      match pNumber s with
      | some r => some r
      | none =>
          match pIdentifier s with
          | some r => some r
          | none =>
              match pTag "(" s with
              | some rest =>
                  match pValue fuel rest with
                  | some (rest, v) =>
                      match pTag ")" rest with
                      | some rest => some (rest, v)
                      | none => none
                  | none => none
              | none => none

/-- A relation `token(identifier) SEP token(value)`, shared by `equal`,
`not_equal` and `transition`. -/
def pRelWith (fuel : Nat) (seps : List String) (s : List Char) :
    Option (List Char × String × ValueAst) :=
  match fuel with
  | 0 => none
  | fuel + 1 =>
      match pToken pIdentifier s with
      | some (rest, ValueAst.id id) =>
          match pTags seps rest with
          | some rest =>
              match pToken (pValue fuel) rest with
              | some (rest, v) => some (rest, id, v)
              | none => none
          | none => none
      | _ => none

/-- nom `term`: `alt((parens, equal, not_equal, transition, before,
after, any))`. -/
def pTerm (fuel : Nat) (s : List Char) : Option (List Char × ExprAst) :=
  match fuel with
  | 0 => none
  | fuel + 1 =>
      match (match pTag "(" s with
             | some rest =>
                 match pExpr fuel rest with
                 | some (rest, e) =>
                     match pTag ")" rest with
                     | some rest => some (rest, e)
                     | none => none
                 | none => none
             | none => none) with
      | some r => some r
      | none =>
          match pRelWith fuel ["=", "is", "equals"] s with
          | some (rest, id, v) => some (rest, ExprAst.equal id v)
          | none =>
              match pRelWith fuel ["!=", "is not"] s with
              | some (rest, id, v) => some (rest, ExprAst.not (ExprAst.equal id v))
              | none =>
                  match pRelWith fuel ["<-", "becomes"] s with
                  | some (rest, id, v) => some (rest, ExprAst.transition id v)
                  | none =>
                      match pToken (pTagU "before") s with
                      | some (rest, _) =>
                          match pDecimal rest with
                          | some (rest, n) => some (rest, ExprAst.before n)
                          | none => pTermAfterAny fuel s
                      | none => pTermAfterAny fuel s

/-- The `after` and `any` branches of `term`. -/
def pTermAfterAny (fuel : Nat) (s : List Char) : Option (List Char × ExprAst) :=
  match fuel with
  | 0 => none
  | _ + 1 =>
      match pToken (pTagU "after") s with
      | some (rest, _) =>
          match pDecimal rest with
          | some (rest, n) => some (rest, ExprAst.after n)
          | none => pAnyTransition s
      | none => pAnyTransition s

/-- nom `tier`: `alt((and, nand, term))`. -/
def pTier (fuel : Nat) (s : List Char) : Option (List Char × ExprAst) :=
  match fuel with
  | 0 => none
  | fuel + 1 =>
      match pSep fuel "and" s with
      | some (rest, l, r) => some (rest, ExprAst.and l r)
      | none =>
          match pSep fuel "nand" s with
          | some (rest, l, r) => some (rest, ExprAst.not (ExprAst.and l r))
          | none => pTerm fuel s

/-- `separated_pair(token(term), tag(sep), token(tier))`. -/
def pSep (fuel : Nat) (sep : String) (s : List Char) :
    Option (List Char × ExprAst × ExprAst) :=
  match fuel with
  | 0 => none
  | fuel + 1 =>
      match pToken (pTerm fuel) s with
      | some (rest, l) =>
          match pTag sep rest with
          | some rest =>
              match pToken (pTier fuel) rest with
              | some (rest, r) => some (rest, l, r)
              | none => none
          | none => none
      | none => none

/-- nom `expr`: `alt((or, tier))`. -/
def pExpr (fuel : Nat) (s : List Char) : Option (List Char × ExprAst) :=
  match fuel with
  | 0 => none
  | fuel + 1 =>
      match pSep fuel "or" s with
      | some (rest, l, r) => some (rest, ExprAst.or l r)
      | none => pTier fuel s

end

end SearchParser

/-- `ExprAst::from_str`: run the expression grammar over the whole
input. -/
def ExprAst.fromStr (s : String) : Option ExprAst :=
  match SearchParser.pExpr (4 * (s.length + 1)) s.data with
  | some ([], ast) => some ast
  | _ => none

/-- `Search::new`. -/
def Search.fromStr (expr : String) : Option Search :=
  (ExprAst.fromStr expr).map Search.mkNew

/-- `SignalDB::search_all` with a textual expression: parse, run over
every store timestamp, format the findings. -/
def SignalDB.search_all (db : SignalDB) (expr : String) :
    Option (List TimeDescr × String) :=
  match Search.fromStr expr with
  | some s => db.run_search s
  | none => none

/-! ## VCD lexer (`src/vcd/lexer.rs`)

The input stream is the list of its lines; every line carries the
trailing newline `read_line` delivers (the final line may omit it), and no
line is the empty string.  In the Int timestamp model a `$timescale`
literal keeps only its count — the unit is validated and dropped, which is
exact for a file whose timestamps all share the one declared unit. -/

inductive Keyword where
  | comment
  | date
  | dumpVars
  | endKw
  | endDefinitions
  | scopeKw
  | timescale
  | var
  | version
  | upscope
deriving DecidableEq, Repr

inductive Token where
  | word (s : String)
  | keyword (k : Keyword)
  | range (b e : Nat)
  | identifier (s : String)
  | identifierRange (s : String) (b e : Nat)
  | integer (n : Nat)
  | value (v : SignalValue)
  | valueIdentifier (v : SignalValue) (id : String)
  | timestamp (t : Int)
  | timescale (n : Nat)
  | eof
deriving DecidableEq, Repr

inductive Context where
  | comment
  | stmt
  | id
  | idRange
  | shortId
  | value
  | timescale
deriving DecidableEq, Repr

namespace Token

/-- `Token::retokenize_kw`. -/
def retokenizeKw (word : String) : Option Token :=
  match word with
  | "$comment" => some (.keyword .comment)
  | "$date" => some (.keyword .date)
  | "$dumpvars" => some (.keyword .dumpVars)
  | "$end" => some (.keyword .endKw)
  | "$enddefinitions" => some (.keyword .endDefinitions)
  | "$scope" => some (.keyword .scopeKw)
  | "$timescale" => some (.keyword .timescale)
  | "$var" => some (.keyword .var)
  | "$version" => some (.keyword .version)
  | "$upscope" => some (.keyword .upscope)
  | _ => none

/-- `Token::retokenize_integer` (`usize` parse). -/
def retokenizeInteger (word : String) : Option Token :=
  (listNatParse? word.data).map Token.integer

/-- `Token::retokenize_value` (words are never empty). -/
def retokenizeValue (word : String) : Option Token :=
  match word.data with
  | [] => none
  | c :: rest =>
      if c = 'b' then some (.value (SignalValue.fromStr (String.mk rest)))
      else if c = 'x' ∨ c = '-' ∨ c = 'z' ∨ c = 'u' ∨ c = 'w' ∨ c = '1' ∨ c = '0' then
        some (.valueIdentifier (SignalValue.fromStr (String.mk [c])) (String.mk rest))
      else if c = 's' then some (.value (SignalValue.from_symbol_str (String.mk rest)))
      else none

/-- `Token::retokenize_timestamp` (`i64` parse after `#`). -/
def retokenizeTimestamp (word : String) : Option Token :=
  match word.data with
  | '#' :: rest => (listIntParse? rest).map Token.timestamp
  | _ => none

/-- `Token::retokenize_range`: `[N:M]`. -/
def retokenizeRange (word : String) : Option Token :=
  match word.data with
  | '[' :: rest =>
      if rest.getLast? = some ']' then
        match splitOnChar ':' rest.dropLast with
        | [a, b] => do
            let x ← listNatParse? a
            let y ← listNatParse? b
            pure (.range x y)
        | _ => none
      else none
  | _ => none

/-- `Token::retokenize_id_range`: split an identifier from a trailing
range at the first `[`. -/
def retokenizeIdRange (word : String) : Option Token :=
  match word.data.findIdx? (· = '[') with
  | some i =>
      match retokenizeRange (String.mk (word.data.drop i)) with
      | some (.range b e) => some (.identifierRange (String.mk (word.data.take i)) b e)
      | _ => none
  | none => some (.identifier word)

/-- `Token::retokenize_timescale`: validate the unit suffix, keep the
count (defaulting to 1). -/
def retokenizeTimescale (word : String) : Option Token :=
  if "ms".data.isSuffixOf word.data ∨ "us".data.isSuffixOf word.data ∨
      "ns".data.isSuffixOf word.data ∨ "ps".data.isSuffixOf word.data ∨
      "fs".data.isSuffixOf word.data ∨ "s".data.isSuffixOf word.data then
    match word.data.findIdx? (fun c => !c.isDigit) with
    | some i =>
        let suffix := String.mk (word.data.drop i)
        if suffix = "s" ∨ suffix = "ms" ∨ suffix = "us" ∨ suffix = "ns" ∨
            suffix = "ps" ∨ suffix = "fs" then
          some (.timescale ((listNatParse? (word.data.take i)).getD 1))
        else none
    | none => none
  else none

/-- `Token::retokenize`: context-directed re-interpretation of a raw
word; non-word tokens pass through. -/
def retokenize (tok : Token) (ctx : Context) : Token :=
  match tok with
  | .word w =>
      match ctx with
      | .comment => (retokenizeKw w).getD (.word w)
      | .stmt =>
          ((retokenizeKw w).orElse fun _ =>
            (retokenizeTimestamp w).orElse fun _ =>
              retokenizeValue w).getD (.word w)
      | .id =>
          ((retokenizeInteger w).orElse fun _ =>
            retokenizeIdRange w).getD (.identifier w)
      | .shortId => .identifier w
      | .idRange =>
          ((retokenizeRange w).orElse fun _ =>
            retokenizeKw w).getD (.identifier w)
      | .value =>
          ((retokenizeKw w).orElse fun _ =>
            retokenizeValue w).getD (.word w)
      | .timescale =>
          ((retokenizeKw w).orElse fun _ =>
            (retokenizeInteger w).orElse fun _ =>
              retokenizeTimescale w).getD (.word w)
  | tok => tok

end Token

/-- Accumulate maximal non-whitespace runs. -/
def wordsAux : List Char → List Char → List String
  | [], cur => if cur = [] then [] else [String.mk cur.reverse]
  | c :: rest, cur =>
      if c.isWhitespace then
        if cur = [] then wordsAux rest []
        else String.mk cur.reverse :: wordsAux rest []
      else wordsAux rest (c :: cur)

/-- `str::split_whitespace`. -/
def splitWhitespace (s : String) : List String :=
  wordsAux s.data []

structure Lexer where
  buf : String
  lines : List String
  tokQueue : List Token
deriving Repr

namespace Lexer

def new (lines : List String) : Lexer :=
  { buf := "", lines := lines, tokQueue := [] }

/-- The `read_line` loop of `feed_words`: keep appending lines while the
buffer is exactly a lone newline.  Returns the buffer, the remaining
lines and whether the final read hit end of input; `none` models the
(unreachable for the inputs considered here) unterminated loop at a
trailing blank line. -/
def feedAux (buf : String) : List String → Option (String × List String × Bool)
  | [] => if buf = "\n" then none else some (buf, [], true)
  | l :: rest =>
      let buf' := buf ++ l
      if buf' = "\n" then feedAux buf' rest else some (buf', rest, false)

/-- `Lexer::feed_words`. -/
def feedWords (lx : Lexer) : Option Lexer :=
  match feedAux "" lx.lines with
  | none => none
  | some (buf, rest, eof) =>
      if eof then some { buf := buf, lines := rest, tokQueue := lx.tokQueue ++ [Token.eof] }
      else
        some { buf := buf, lines := rest
               tokQueue := lx.tokQueue ++ (splitWhitespace buf).map Token.word }

/-- `Lexer::pop`: refill the queue as needed, then retokenize the front
token in the requested context.  Fuel bounds the refill loop. -/
def pop (fuel : Nat) (lx : Lexer) (ctx : Context) : Option (Token × Lexer) :=
  match fuel with
  | 0 => none
  | fuel + 1 =>
      match lx.tokQueue with
      | t :: rest => some (t.retokenize ctx, { lx with tokQueue := rest })
      | [] =>
          match lx.feedWords with
          | some lx' => pop fuel lx' ctx
          | none => none

/-- `Lexer::get_current_line`. -/
def get_current_line (lx : Lexer) : String :=
  lx.buf

end Lexer

/-! ## VCD parser (`src/vcd/parser.rs`) -/

/-- How a parse run ends abnormally: a `SyntaxError` carrying the current
line, a `panic!` (the store's `declare_signal` on an undeclared scope), or
exhaustion of the model's fuel. -/
inductive ParseErr where
  | syntaxError (line : String)
  | panicked
  | outOfFuel
deriving DecidableEq, Repr

/-- Rust `{:?}` escaping of a string (the characters our inputs use). -/
def rustDebugStr (s : String) : String :=
  "\"" ++ String.join (s.data.map fun c =>
    if c = '"' then "\\\""
    else if c = '\\' then "\\\\"
    else if c = '\n' then "\\n"
    else if c = '\t' then "\\t"
    else if c = '\r' then "\\r"
    else String.mk [c]) ++ "\""

/-- `Display for SyntaxError`: `Syntax Error: {:?}` of the offending
line. -/
def SyntaxError.display (line : String) : String :=
  "Syntax Error: " ++ rustDebugStr line

/-- Parser state: the lexer, the store being populated, the scope stack,
the optional parse limit (raw `#` ticks) and the current timescale
multiplier. -/
structure PState where
  lexer : Lexer
  db : SignalDB
  scope : List String
  limit : Option Int
  timescale : Int

namespace PState

/-- `Parser::new` (with `set_limit` already applied when a limit is
given); the initial timescale is one tick. -/
def new (lines : List String) (db : SignalDB) (limit : Option Int) : PState :=
  { lexer := Lexer.new lines, db := db, scope := [], limit := limit, timescale := 1 }

/-- `syntax_error!`: a `SyntaxError` carrying the current line. -/
def synErr (st : PState) : PState × Except ParseErr Unit :=
  (st, .error (.syntaxError st.lexer.get_current_line))

/-- Pop one token in a context. -/
def popTok (fuel : Nat) (st : PState) (ctx : Context) : PState × Except ParseErr Token :=
  match st.lexer.pop fuel ctx with
  | some (t, lx) => ({ st with lexer := lx }, .ok t)
  | none => (st, .error .outOfFuel)

/-- `Parser::parse_comment`. -/
def parse_comment (fuel : Nat) (st : PState) : PState × Except ParseErr Unit :=
  match fuel with
  | 0 => (st, .error .outOfFuel)
  | fuel + 1 =>
      match st.popTok fuel .comment with
      | (st, .ok (.word _)) => parse_comment fuel st
      | (st, .ok (.keyword .endKw)) => (st, .ok ())
      | (st, .ok _) => st.synErr
      | (st, .error e) => (st, .error e)

/-- `Parser::parse_scope`: `<type> <id> $end`, then push the scope and
create it in the store. -/
def parse_scope (fuel : Nat) (st : PState) : PState × Except ParseErr Unit :=
  match st.popTok fuel .id with
  | (st, .ok (.identifier _scopeType)) =>
      (match st.popTok fuel .id with
       | (st, .ok (.identifier scopeId)) =>
           (match st.popTok fuel .stmt with
            | (st, .ok (.keyword .endKw)) =>
                let scope := st.scope ++ [scopeId]
                ({ st with scope := scope, db := st.db.create_scope scope }, .ok ())
            | (st, .ok _) => st.synErr
            | (st, .error e) => (st, .error e))
       | (st, .ok _) => st.synErr
       | (st, .error e) => (st, .error e))
  | (st, .ok _) => st.synErr
  | (st, .error e) => (st, .error e)

/-- `Parser::parse_upscope`. -/
def parse_upscope (fuel : Nat) (st : PState) : PState × Except ParseErr Unit :=
  match st.popTok fuel .stmt with
  | (st, .ok (.keyword .endKw)) => ({ st with scope := st.scope.dropLast }, .ok ())
  | (st, .ok _) => st.synErr
  | (st, .error e) => (st, .error e)

/-- `Parser::declare_new_var`: `declare_signal` under the current scope
stack; its `panic!` on an undeclared scope aborts the run. -/
def declare_new_var (st : PState) (sig : Signal) : PState × Except ParseErr Unit :=
  match st.db.declare_signal st.scope sig with
  | some db => ({ st with db := db }, .ok ())
  | none => (st, .error .panicked)

/-- `Parser::parse_var`. -/
def parse_var (fuel : Nat) (st : PState) : PState × Except ParseErr Unit :=
  match st.popTok fuel .id with
  | (st, .ok (.identifier _varType)) =>
      (match st.popTok fuel .id with
       | (st, .ok (.integer varWidth)) =>
           (match st.popTok fuel .shortId with
            | (st, .ok (.identifier varShortIdent)) =>
                (match st.popTok fuel .id with
                 | (st, .ok (.identifier varIdent)) =>
                     (match st.popTok fuel .idRange with
                      | (st, .ok (.range _ _)) =>
                          (match st.popTok fuel .stmt with
                           | (st, .ok (.keyword .endKw)) =>
                               st.declare_new_var (Signal.new varShortIdent varIdent varWidth)
                           | (st, .ok _) => st.synErr
                           | (st, .error e) => (st, .error e))
                      | (st, .ok (.keyword .endKw)) =>
                          st.declare_new_var (Signal.new varShortIdent varIdent varWidth)
                      | (st, .ok _) => st.synErr
                      | (st, .error e) => (st, .error e))
                 | (st, .ok (.identifierRange varIdent _ _)) =>
                     (match st.popTok fuel .stmt with
                      | (st, .ok (.keyword .endKw)) =>
                          st.declare_new_var (Signal.new varShortIdent varIdent varWidth)
                      | (st, .ok _) => st.synErr
                      | (st, .error e) => (st, .error e))
                 | (st, .ok _) => st.synErr
                 | (st, .error e) => (st, .error e))
            | (st, .ok _) => st.synErr
            | (st, .error e) => (st, .error e))
       | (st, .ok _) => st.synErr
       | (st, .error e) => (st, .error e))
  | (st, .ok _) => st.synErr
  | (st, .error e) => (st, .error e)

/-- `Parser::parse_value_change`: the short id follows, then the store's
`set_current_value`; an unknown id becomes a `SyntaxError` on the current
line. -/
def parse_value_change (fuel : Nat) (st : PState) (v : SignalValue) :
    PState × Except ParseErr Unit :=
  match st.popTok fuel .shortId with
  | (st, .ok (.identifier ident)) =>
      (match st.db.set_current_value ident v with
       | (db, .ok ()) => ({ st with db := db }, .ok ())
       | (db, .error _) =>
           ({ st with db := db }, .error (.syntaxError st.lexer.get_current_line)))
  | (st, .ok _) => st.synErr
  | (st, .error e) => (st, .error e)

/-- The same error mapping for a compact `<bit><shortid>` line. -/
def set_value_mapped (st : PState) (id : String) (v : SignalValue) :
    PState × Except ParseErr Unit :=
  match st.db.set_current_value id v with
  | (db, .ok ()) => ({ st with db := db }, .ok ())
  | (db, .error _) =>
      ({ st with db := db }, .error (.syntaxError st.lexer.get_current_line))

/-- `Parser::parse_dumpvars`: value lines until `$end`, which marks the
store initialized. -/
def parse_dumpvars (fuel : Nat) (st : PState) : PState × Except ParseErr Unit :=
  match fuel with
  | 0 => (st, .error .outOfFuel)
  | fuel + 1 =>
      match st.popTok fuel .value with
      | (st, .ok (.value v)) =>
          (match st.parse_value_change fuel v with
           | (st, .ok ()) => parse_dumpvars fuel st
           | (st, .error e) => (st, .error e))
      | (st, .ok (.valueIdentifier v i)) =>
          (match st.set_value_mapped i v with
           | (st, .ok ()) => parse_dumpvars fuel st
           | (st, .error e) => (st, .error e))
      | (st, .ok (.keyword .endKw)) =>
          ({ st with db := st.db.mark_as_initialized }, .ok ())
      | (st, .ok _) => st.synErr
      | (st, .error e) => (st, .error e)

/-- `Parser::parse_timescale`: `[<int>] <timescale> $end`, yielding the
new multiplier. -/
def parse_timescale (fuel : Nat) (st : PState) : PState × Except ParseErr Int :=
  match st.popTok fuel .timescale with
  | (st, .ok (.integer times)) =>
      (match st.popTok fuel .timescale with
       | (st, .ok (.timescale ts)) =>
           (match st.popTok fuel .timescale with
            | (st, .ok (.keyword .endKw)) => (st, .ok ((ts : Int) * (times : Int)))
            | (st, .ok _) => (st, .error (.syntaxError st.lexer.get_current_line))
            | (st, .error e) => (st, .error e))
       | (st, .ok _) => (st, .error (.syntaxError st.lexer.get_current_line))
       | (st, .error e) => (st, .error e))
  | (st, .ok (.timescale ts)) =>
      (match st.popTok fuel .timescale with
       | (st, .ok (.keyword .endKw)) => (st, .ok (ts : Int))
       | (st, .ok _) => (st, .error (.syntaxError st.lexer.get_current_line))
       | (st, .error e) => (st, .error e))
  | (st, .ok _) => (st, .error (.syntaxError st.lexer.get_current_line))
  | (st, .error e) => (st, .error e)

/-- `Parser::parse`: the statement loop. -/
def parse (fuel : Nat) (st : PState) : PState × Except ParseErr Unit :=
  match fuel with
  | 0 => (st, .error .outOfFuel)
  | fuel + 1 =>
      match st.popTok fuel .stmt with
      | (st, .ok (.keyword k)) =>
          (match k with
           | .comment | .date | .version =>
               (match st.parse_comment fuel with
                | (st, .ok ()) => parse fuel st
                | (st, .error e) => (st, .error e))
           | .endDefinitions =>
               let st := { st with db := st.db.mark_as_initialized }
               (match st.parse_comment fuel with
                | (st, .ok ()) => parse fuel st
                | (st, .error e) => (st, .error e))
           | .dumpVars =>
               (match st.parse_dumpvars fuel with
                | (st, .ok ()) => parse fuel st
                | (st, .error e) => (st, .error e))
           | .scopeKw =>
               (match st.parse_scope fuel with
                | (st, .ok ()) => parse fuel st
                | (st, .error e) => (st, .error e))
           | .var =>
               (match st.parse_var fuel with
                | (st, .ok ()) => parse fuel st
                | (st, .error e) => (st, .error e))
           | .upscope =>
               (match st.parse_upscope fuel with
                | (st, .ok ()) => parse fuel st
                | (st, .error e) => (st, .error e))
           | .timescale =>
               (match st.parse_timescale fuel with
                | (st, .ok ts) => parse fuel { st with timescale := ts }
                | (st, .error e) => (st, .error e))
           | _ => st.synErr)
      | (st, .ok (.timestamp v)) =>
          let t := st.timescale * v
          let st := { st with db := st.db.set_time t }
          (match st.limit with
           | some limit => if v > limit then (st, .ok ()) else parse fuel st
           | none => parse fuel st)
      | (st, .ok (.value v)) =>
          (match st.parse_value_change fuel v with
           | (st, .ok ()) => parse fuel st
           | (st, .error e) => (st, .error e))
      | (st, .ok (.valueIdentifier v i)) =>
          (match st.set_value_mapped i v with
           | (st, .ok ()) => parse fuel st
           | (st, .error e) => (st, .error e))
      | (st, .ok .eof) => (st, .ok ())
      | (st, .ok _) => st.synErr
      | (st, .error e) => (st, .error e)

end PState

namespace SignalDB

/-- `SignalDB::parse_vcd_with_limit`: set the status, run the parser; on
a `SyntaxError` record its message as the status, mark the store invalid
and release the initialization latch; on success record the event
count. -/
def parse_vcd_with_limit (db : SignalDB) (lines : List String) (limit : Option Int)
    (fuel : Nat) : SignalDB × Except ParseErr Unit :=
  let db := db.set_status "Parsing VCD file..."
  match PState.parse fuel (PState.new lines db limit) with
  | (st, .ok ()) =>
      (st.db.set_status ("Ready: " ++ toString st.db.timestamps.length ++ " events"), .ok ())
  | (st, .error (.syntaxError line)) =>
      (((st.db.set_status (SyntaxError.display line)).mark_as_invalid).mark_as_initialized,
        .error (.syntaxError line))
  | (st, .error e) => (st.db, .error e)

/-- `SignalDB::from_vcd_with_limit`. -/
def from_vcd_with_limit (lines : List String) (limit : Option Int) (fuel : Nat) :
    SignalDB × Except ParseErr Unit :=
  SignalDB.new.parse_vcd_with_limit lines limit fuel

/-- `SignalDB::from_vcd`. -/
def from_vcd (lines : List String) (fuel : Nat) : SignalDB × Except ParseErr Unit :=
  from_vcd_with_limit lines none fuel

end SignalDB

/-! ## Claims C1, C2, C6, C7, C9, C10 -/

/-- Scenario 1 of the spec: a 32-bit wire `0` (`b0` at `#0`, `b101010` at
`#1337`) and a string signal `1` (`INIT`, then `TEST`). -/
def vcdScenario1 : List String :=
  ["$scope module top $end\n",
   "$var wire 32 0 foo $end\n",
   "$var string 1 1 state $end\n",
   "$upscope $end\n",
   "$enddefinitions $end\n",
   "#0 $dumpvars b0 0 sINIT 1 $end\n",
   "#1337 b101010 0 sTEST 1\n"]

/-- Scenario 3 of the spec: a 1-bit wire `0` that is `0` from `#0`,
becomes `1` at `#1337` and returns to `0` at `#1338`. -/
def vcdScenario3 : List String :=
  ["$scope module top $end\n",
   "$var wire 1 0 foo $end\n",
   "$upscope $end\n",
   "$enddefinitions $end\n",
   "#0\n",
   "$dumpvars\n",
   "b0 0\n",
   "$end\n",
   "#1337\n",
   "10\n",
   "#1338\n",
   "00\n"]

/-- Scenario 1 with a stray line inserted, which fails statement
dispatch. -/
def vcdStray : List String :=
  ["$scope module top $end\n",
   "$var wire 1 0 foo $end\n",
   "$upscope $end\n",
   "$enddefinitions $end\n",
   "!!!\n",
   "#0\n"]

/-- C1: on the store parsed from the scenario-3 VCD (1-bit signal `0`:
`0` from 0, `1` at 1337, `0` at 1338), the level search `$0 = 1` over
every timestamp yields exactly the half-open `Period(1337, 1338)` and
`format_findings` prints exactly `"1337-1338\n"`. -/
theorem claim_C1 :
    (SignalDB.from_vcd vcdScenario3 1000).2 = .ok () ∧
    (SignalDB.from_vcd vcdScenario3 1000).1.search_all "$0 = 1"
      = some ([TimeDescr.period 1337 1338], "1337-1338\n") := by
  decide

/-- C2: on the same store, the transition search `$0 <- 1` yields exactly
the `Point(1337)` and `format_findings` prints exactly `"1337\n"`. -/
theorem claim_C2 :
    (SignalDB.from_vcd vcdScenario3 1000).2 = .ok () ∧
    (SignalDB.from_vcd vcdScenario3 1000).1.search_all "$0 <- 1"
      = some ([TimeDescr.point 1337], "1337\n") := by
  decide

/-- C6: whenever a VCD parse run ends in a `SyntaxError`, the store comes
out invalid, with the error's message as its status, with the
initialization latch released (so no waiter blocks), and
`wait_until_initialized` returns an `InitializationError` whose message
equals that status string. -/
theorem claim_C6 (db₀ : SignalDB) (lines : List String) (limit : Option Int)
    (fuel : Nat) (line : String) (db' : SignalDB)
    (h : db₀.parse_vcd_with_limit lines limit fuel
      = (db', .error (.syntaxError line))) :
    db'.valid = false ∧ db'.initialized = true ∧
    db'.status = SyntaxError.display line ∧
    db'.wait_until_initialized
      = some (.error (InitializationError.mk (SyntaxError.display line))) := by
  rw [SignalDB.parse_vcd_with_limit] at h
  rcases hp : PState.parse fuel
      (PState.new lines (db₀.set_status "Parsing VCD file...") limit) with ⟨st, res⟩
  rw [hp] at h
  cases res with
  | ok u => simp at h
  | error e =>
      cases e with
      | syntaxError l =>
          simp only [Prod.mk.injEq, Except.error.injEq, ParseErr.syntaxError.injEq] at h
          obtain ⟨hdb, hl⟩ := h
          subst hl
          subst hdb
          refine ⟨rfl, rfl, rfl, ?_⟩
          rw [SignalDB.wait_until_initialized]
          rfl
      | panicked => simp at h
      | outOfFuel => simp at h

/-- C6 witness: the stray-line scenario evaluated concretely. -/
theorem claim_C6_witness :
    (SignalDB.new.parse_vcd_with_limit vcdStray none 1000).1.valid = false ∧
    (SignalDB.new.parse_vcd_with_limit vcdStray none 1000).1.initialized = true ∧
    (SignalDB.new.parse_vcd_with_limit vcdStray none 1000).1.status
      = SyntaxError.display "!!!\n" ∧
    (SignalDB.new.parse_vcd_with_limit vcdStray none 1000).1.wait_until_initialized
      = some (.error (InitializationError.mk (SyntaxError.display "!!!\n"))) := by
  have h2 : (SignalDB.new.parse_vcd_with_limit vcdStray none 1000).2
      = .error (.syntaxError "!!!\n") := by decide
  have h : SignalDB.new.parse_vcd_with_limit vcdStray none 1000
      = ((SignalDB.new.parse_vcd_with_limit vcdStray none 1000).1,
          .error (.syntaxError "!!!\n")) := by
    rw [← h2]
  exact claim_C6 SignalDB.new vcdStray none 1000 "!!!\n" _ h

/-- C7: parsing the scenario-1 VCD with parse limit 1300 terminates
successfully once the `#1337` token exceeds the limit; afterwards signal
`0` still reads `0` at 1338 and signal `1` still reads the symbol `INIT`
— the post-limit value changes were never applied. -/
theorem claim_C7 :
    (SignalDB.from_vcd_with_limit vcdScenario1 (some 1300) 1000).2 = .ok () ∧
    ((SignalDB.from_vcd_with_limit vcdScenario1 (some 1300) 1000).1.value_at "0" 1338).map
      (fun v => v.eqv (SignalValue.new 0)) = .ok true ∧
    ((SignalDB.from_vcd_with_limit vcdScenario1 (some 1300) 1000).1.value_at "1" 1338).map
      (fun v => v.eqv (SignalValue.from_symbol_str "INIT")) = .ok true := by
  decide

/-- C9 counterexample: `declare_signal` on a fresh store with the
never-created scope path `["foo"]` panics (`none` in the model) instead of
returning an error kind to the caller. -/
theorem claim_C9_counterexample :
    (SignalDB.new.declare_signal ["foo"] (Signal.new "0" "baz" 32)).isNone = true := by
  decide

/-- C9 (amended): per-signal mutators report misuse as error kinds —
`insert_event` on an unknown id returns `SignalNotFound` — but
`declare_signal` panics exactly when its scope path does not resolve,
rather than returning an error. -/
theorem claim_C9 :
    (∀ (db : SignalDB) (scope : List String) (sig : Signal),
        (db.declare_signal scope sig).isNone
          = (db.scope.get_scope_by_path scope).isNone) ∧
    (∀ (db : SignalDB) (id : String) (t : Int) (v : SignalValue),
        alistFind? id (db.set_time t).signals = none →
        db.insert_event id t v = (db.set_time t, .error ⟨id⟩)) := by
  constructor
  · intro db scope sig
    have h := Scope.add_signal_at_isSome db.scope scope sig.id
    rw [SignalDB.declare_signal]
    cases hc : db.scope.add_signal_at scope sig.id with
    | some sc =>
        rw [hc] at h
        cases hg : db.scope.get_scope_by_path scope with
        | some g => rfl
        | none => rw [hg] at h; simp at h
    | none =>
        rw [hc] at h
        cases hg : db.scope.get_scope_by_path scope with
        | some g => rw [hg] at h; simp at h
        | none => rfl
  · intro db id t v h
    rw [SignalDB.insert_event, h]

/-- C9 witness: both conclusions evaluated on a fresh store. -/
theorem claim_C9_witness :
    ((SignalDB.new.declare_signal ["foo"] (Signal.new "0" "baz" 32)).isNone
      = (SignalDB.new.scope.get_scope_by_path ["foo"]).isNone) ∧
    SignalDB.new.insert_event "z" 3 (SignalValue.new 1)
      = (SignalDB.new.set_time 3, .error ⟨"z"⟩) := by
  have h := claim_C9
  exact ⟨h.1 SignalDB.new ["foo"] (Signal.new "0" "baz" 32),
    h.2 SignalDB.new "z" 3 (SignalValue.new 1) (by decide)⟩

/-- C10: for every store, id (known or unknown) and window whose end lies
strictly after the current time cursor, `events_between` returns
`Ok((invalid, 0, invalid))` without consulting the signal map — in
particular it never reports `SignalNotFound` for an unknown id in that
case. -/
theorem claim_C10 (db : SignalDB) (id : String) (b e : Int) (h : e > db.now) :
    db.events_between id b e = .ok (SignalValue.invalid, 0, SignalValue.invalid) := by
  rw [SignalDB.events_between, if_pos h]

/-- C10 witness: an unknown id on a fresh store with a window past
`now`. -/
theorem claim_C10_witness :
    SignalDB.new.events_between "nosuch" 0 1
      = .ok (SignalValue.invalid, 0, SignalValue.invalid) :=
  claim_C10 SignalDB.new "nosuch" 0 1 (by decide)

end Dwfv
